import Mathlib

/-!
Verification of the job-orchestration core of serverStock.py: the file-backed
post store, the decision-normalization and percent-change calculations, the
reorder endpoint, and the streaming / non-streaming analysis pipelines.

Python strings are modelled as Lean strings (lists of characters); the python
operations used by the source (substring test via the in operator, str.lower,
str.upper, str.strip, str.splitlines) are modelled below on the underlying
character lists.  Python floats are modelled as rationals.  The external
collaborators (the TradingAgents engine and the yfinance price feed) are
inputs of the pipeline functions: an engine behaviour fixes, per ticker, the
streamed text chunks, the final-state fields and the decision strings the
source observes, and the price feed is a function from ticker to an optional
price.  Wall-clock timestamps (updatedAt fields) are not modelled; no claim
mentions them.
-/

-- -------------------
-- Python string primitives
-- -------------------

/-- Python substring test: pat occurs as a contiguous segment of l. -/
def containsSeg (l pat : List Char) : Bool :=
  (List.range (l.length + 1)).any (fun i => decide ((l.drop i).take pat.length = pat))

/-- Python in operator on strings. -/
def pyContains (s pat : String) : Bool :=
  containsSeg s.data pat.data

/-- Python str.lower (ASCII case mapping, as Char.toLower). -/
def pyLower (s : String) : String :=
  ⟨s.data.map Char.toLower⟩

/-- Python str.upper (ASCII case mapping, as Char.toUpper). -/
def pyUpper (s : String) : String :=
  ⟨s.data.map Char.toUpper⟩

/-- Whitespace predicate used by str.strip (default argument). -/
def wsB (c : Char) : Bool :=
  c.isWhitespace

/-- Python str.strip on the character list: drop leading and trailing whitespace. -/
def stripList (l : List Char) : List Char :=
  ((l.dropWhile wsB).reverse.dropWhile wsB).reverse

/-- Python str.strip. -/
def pyStrip (s : String) : String :=
  ⟨stripList s.data⟩

/-- Split a character list at every newline character. -/
def splitOnNl (l : List Char) : List (List Char) :=
  l.foldr (fun x acc =>
    match acc with
    | [] => [[ x ]]
    | hd :: tl => if x = '\n' then [] :: (hd :: tl) else (x :: hd) :: tl) [[]]

/-- Python str.splitlines for newline-separated text: split on the newline
character, dropping the empty tail produced by a terminal newline. -/
def pySplitlines (s : String) : List String :=
  let parts := (splitOnNl s.data).map (fun l => (⟨l⟩ : String))
  if parts.getLast? = some "" then parts.dropLast else parts

-- -------------------
-- Calculations (source lines 232-235)
-- -------------------

/-- percent_change from the source: None when either input is absent or the
purchase price is zero, otherwise the exact relative change in percent. -/
def percent_change (purchase current : Option ℚ) : Option ℚ :=
  match purchase, current with
  | some p, some c => if p = 0 then none else some ((c - p) / p * 100)
  | _, _ => none

-- -------------------
-- Decision normalizers
-- -------------------

/-- The lenient normalizer _norm from run_tradingagents_analysis
(source lines 92-98): strip and lowercase, then fixed-priority substring
match buy, then sell, default Hold.  The Option input models the python
idiom (s or "") that turns a None-like input into the empty string. -/
def pyNorm (s : Option String) : String :=
  let v := pyLower (pyStrip (s.getD ""))
  if pyContains v "buy" then "Buy"
  else if pyContains v "sell" then "Sell"
  else "Hold"

/-- The inline normalizer of the streaming path (source line 590): same
fixed priority on the lowercased decision text, without stripping. -/
def inlineNorm (decision : String) : String :=
  if pyContains (pyLower decision) "buy" then "Buy"
  else if pyContains (pyLower decision) "sell" then "Sell"
  else "Hold"

/-- The unguarded buy/sell/hold scan: the fallback block of
_derive_decision_from_text (source lines 552-559). -/
def bshScan (txt : String) : Option String :=
  if pyContains txt "buy" then some "Buy"
  else if pyContains txt "sell" then some "Sell"
  else if pyContains txt "hold" then some "Hold"
  else none

/-- _derive_decision_from_text (source lines 539-561).  The marker branch
returns when one of the buy/sell/hold keywords matches; otherwise control
falls through to the fallback scan, which is bshScan. -/
def deriveDecision (text : String) : Option String :=
  let txt := pyLower text
  if txt = "" then none
  else if pyContains txt "final" || pyContains txt "proposal" || pyContains txt "decision" then
    if pyContains txt "buy" then some "Buy"
    else if pyContains txt "sell" then some "Sell"
    else if pyContains txt "hold" then some "Hold"
    else bshScan txt
  else bshScan txt

/-- Decision extracted from one report line by summarize_post.parse_from_report
(source lines 331-348): the line must mention the ticker (case-insensitively)
and look like an explicit decision (final/proposal/decision/colon); then the
buy/sell/hold priority test applies.  None leaves the previous decision. -/
def lineDecision (tk line : String) : Option String :=
  if pyContains (pyUpper line) (pyUpper tk) = false then none
  else
    let low := pyLower line
    if pyContains low "final" || pyContains low "proposal" || pyContains low "decision" || pyContains low ":" then
      if pyContains low "buy" then some "Buy"
      else if pyContains low "sell" then some "Sell"
      else if pyContains low "hold" then some "Hold"
      else none
    else none

/-- parse_from_report (source lines 331-348): scan all report lines, the
decision of the last deciding line wins. -/
def parse_from_report (report_text tk : String) : Option String :=
  if report_text = "" then none
  else
    (pySplitlines report_text).foldl
      (fun decision line =>
        match lineDecision tk line with
        | some d => some d
        | none => decision) none

-- -------------------
-- Word wrap (_wrap_text, source lines 205-227; the source only calls it
-- with the default width 120, which is inlined here)
-- -------------------

/-- Python line.rfind(" ", start, e): the largest index i with
start <= i < e holding a space, if any. -/
def rfindSpace (line : List Char) (start e : Nat) : Option Nat :=
  ((List.range e).filter (fun i => decide (start ≤ i) && decide (line.get? i = some ' '))).getLast?

/-- The inner while loop of _wrap_text: cut one over-long line into chunks,
breaking at the last space before the width limit when possible. -/
def wrapChunks (line : List Char) (start : Nat) : List (List Char) :=
  if h : start < line.length then
    match rfindSpace line start (min (start + 120) line.length) with
    | none =>
      (line.take (min (start + 120) line.length)).drop start
        :: wrapChunks line (min (start + 120) line.length)
    | some i =>
      if hle : i ≤ start then
        (line.take (min (start + 120) line.length)).drop start
          :: wrapChunks line (min (start + 120) line.length)
      else (line.take i).drop start :: wrapChunks line (i + 1)
  else []
termination_by line.length - start
decreasing_by
  all_goals simp [rfindSpace] at *
  all_goals omega

/-- _wrap_text: wrap each input line at column 120 with whitespace-aware
breaking, join with newlines. -/
def wrap_text (s : String) : String :=
  String.intercalate "\n"
    ((pySplitlines s).foldr
      (fun line acc =>
        (if line.length ≤ 120 then [line]
         else (wrapChunks line.data 0).map (fun l => (⟨l⟩ : String))) ++ acc) [])

-- -------------------
-- Data model (post records of stocks.json)
-- -------------------

/-- The opaque signals bag recorded per ticker: engine rationale fields on
success, an error message on failure, or the not-installed stub note. -/
inductive Signals where
  | engine (ftd plan ji jr : Option String)
  | error (msg : String)
  | stub
deriving DecidableEq

/-- One per_ticker record: a suggestion plus signals. -/
structure TickerRec where
  suggestion : String
  signals : Signals
deriving DecidableEq

/-- One snapshot record: current price and percent change, either absent. -/
structure SnapRec where
  current : Option ℚ
  pct : Option ℚ
deriving DecidableEq

/-- The purchases field: either a ticker-to-price mapping or a legacy scalar
applied to every ticker. -/
inductive Purchases where
  | dict (m : List (String × ℚ))
  | scalar (v : ℚ)
deriving DecidableEq

/-- The analysis bundle; each field is optional because the corresponding
dictionary key may be absent.  per_ticker is an insertion-ordered mapping. -/
structure Analysis where
  report : Option String
  per_ticker : Option (List (String × TickerRec))
  summary : Option String
deriving DecidableEq

/-- A post record.  Timestamps are not modelled; options other than the date
act only through the engine behaviour, which is a separate input. -/
structure Post where
  id : String
  tickers : List String
  optDate : Option String
  purchases : Purchases
  analysis : Option Analysis
  snapshot : List (String × SnapRec)
deriving DecidableEq

/-- Plain constructor shorthand for the analysis bundle. -/
def mkAnalysis (rep : Option String) (per : Option (List (String × TickerRec)))
    (sum : Option String) : Analysis :=
  { report := rep, per_ticker := per, summary := sum }

/-- A post with its analysis bundle replaced. -/
def withAnalysis (p : Post) (a : Analysis) : Post :=
  { p with analysis := some a }

/-- Python dict assignment m[k] = v on an insertion-ordered mapping. -/
def setKey {α : Type} : List (String × α) → String → α → List (String × α)
  | [], k, v => [(k, v)]
  | kv :: rest, k, v => if kv.1 = k then (k, v) :: rest else kv :: setKey rest k v

/-- Python dict lookup m.get(k). -/
def lookupKey {α : Type} (m : List (String × α)) (k : String) : Option α :=
  (m.find? (fun kv => decide (kv.1 = k))).map (fun kv => kv.2)

/-- The purchase price for a ticker (source lines 416-420 and 607-611):
a dict is consulted per ticker, a scalar applies to every ticker. -/
def getBuy : Purchases → String → Option ℚ
  | Purchases.dict m, t => lookupKey m t
  | Purchases.scalar v, _ => some v

/-- The as-of date: options date when present and non-empty (python
opts.get("date") or today), else today in the reference timezone. -/
def dateOf (optDate : Option String) (today : String) : String :=
  if optDate.getD "" = "" then today else optDate.getD ""

-- -------------------
-- Store (source lines 43-76)
-- -------------------

/-- _find: first post whose id matches. -/
def findPost (posts : List Post) (pid : String) : Option Post :=
  posts.find? (fun p => decide (p.id = pid))

/-- Mutate the first post whose id matches, in place. -/
def applyToFirst : List Post → String → (Post → Post) → List Post
  | [], _, _ => []
  | p :: rest, pid, m => if p.id = pid then m p :: rest else p :: applyToFirst rest pid m

/-- _update_post (source lines 67-76): read the full collection, locate the
post by id, apply the mutator, persist the full collection; the Bool result
reports whether the post existed.  The second component is the persisted
collection after the call. -/
def update_post (posts : List Post) (pid : String) (mutator : Post → Post) : Bool × List Post :=
  match findPost posts pid with
  | none => (false, posts)
  | some _ => (true, applyToFirst posts pid mutator)

/-- _update_post driven with a fallible mutator: a raising mutator
propagates its exception and the write step (_write, source lines 51-56) is
never reached, so the persisted collection (second component) is unchanged. -/
def update_post_try (posts : List Post) (pid : String)
    (mutator : Post → Except String Post) : Except String Bool × List Post :=
  match findPost posts pid with
  | none => (Except.ok false, posts)
  | some p =>
    match mutator p with
    | Except.error e => (Except.error e, posts)
    | Except.ok q => (Except.ok true, applyToFirst posts pid (fun _ => q))

-- -------------------
-- Reorder endpoint (source lines 253-283)
-- -------------------

/-- The by_id dict comprehension: for duplicate ids the later post wins,
hence the lookup over the reversed list. -/
def byId (posts : List Post) (pid : String) : Option Post :=
  posts.reverse.find? (fun p => decide (p.id = pid))

/-- First loop of reorder_posts: walk the requested order, emitting each
known, not-yet-used id once; returns the emitted posts and the used set. -/
def reorderPass1 (posts : List Post) : List String → List String → List Post × List String
  | [], used => ([], used)
  | pid :: rest, used =>
    match byId posts pid with
    | some p =>
      if pid ∈ used then reorderPass1 posts rest used
      else
        let r := reorderPass1 posts rest (pid :: used)
        (p :: r.1, r.2)
    | none => reorderPass1 posts rest used

/-- Second loop of reorder_posts: append the remaining posts in their
original order, skipping used ids. -/
def reorderPass2 : List Post → List String → List Post
  | [], _ => []
  | p :: rest, used =>
    if p.id ∈ used then reorderPass2 rest used
    else p :: reorderPass2 rest (p.id :: used)

/-- reorder_posts: the new persisted collection for a requested id order. -/
def reorder_posts (posts : List Post) (order : List String) : List Post :=
  (reorderPass1 posts order []).1 ++ reorderPass2 posts (reorderPass1 posts order []).2

/-- Keep the first occurrence of each id not in used (spec-side helper). -/
def dedupFirstFrom (used : List String) : List String → List String
  | [] => []
  | x :: xs => if x ∈ used then dedupFirstFrom used xs else x :: dedupFirstFrom (x :: used) xs

/-- Modelled from the spec words for the reorder guarantee: the posts whose
ids are listed come first, in the order of their first listing, unknown and
duplicate ids ignored; the remaining posts follow in their prior order. -/
def spec_reorder (posts : List Post) (order : List String) : List Post :=
  (dedupFirstFrom [] (order.filter (fun pid => posts.any (fun p => decide (p.id = pid))))).filterMap
      (fun pid => posts.find? (fun p => decide (p.id = pid)))
    ++ posts.filter (fun p => decide (¬ p.id ∈ order))

-- -------------------
-- Engine and price-feed behaviour (external collaborators as inputs)
-- -------------------

/-- What the source observes from one successful engine run on one ticker:
the streamed message contents, the final-state fields it reads, the result
of process_signal (outer none models that call raising), and the decision
string returned by the non-streaming propagate call. -/
structure OkOutcome where
  chunks : List String
  final_trade_decision : Option String
  investment_plan : Option String
  judge_invest : Option String
  judge_risk : Option String
  process_signal : Option (Option String)
  propagate_decision : String
deriving DecidableEq

/-- Engine behaviour on one ticker: either an exception with the chunks
streamed before it (construction failures have no chunks), or a completed
run. -/
inductive TickerOutcome where
  | raise (preChunks : List String) (msg : String)
  | ok (o : OkOutcome)
deriving DecidableEq

/-- Engine availability: the package missing entirely, the concrete-API
module import failing with a message, or a per-ticker behaviour. -/
inductive EngineResult where
  | notInstalled (importMsg : String)
  | importError (msg : String)
  | available (run : String → TickerOutcome)

/-- The signals bag recorded for a successful engine run (source lines
142-147 and 591-596). -/
def engineSig (o : OkOutcome) : Signals :=
  Signals.engine o.final_trade_decision o.investment_plan o.judge_invest o.judge_risk

/-- The per_ticker mapping of a post, reading absent analysis or an absent
per_ticker key as the empty mapping. -/
def perOf (p : Post) : List (String × TickerRec) :=
  match p.analysis with
  | some a => a.per_ticker.getD []
  | none => []

/-- The per_ticker record stored for a ticker. -/
def perLookup (p : Post) (t : String) : Option TickerRec :=
  lookupKey (perOf p) t

-- -------------------
-- Non-streaming pipeline (run_tradingagents_analysis, source lines 81-155,
-- and analyze_post, source lines 394-428)
-- -------------------

/-- The dict returned by run_tradingagents_analysis. -/
structure AnalysisResult where
  summary : String
  per_ticker : List (String × TickerRec)
deriving DecidableEq

/-- The per-ticker record the non-streaming adapter produces (success
records the normalized propagate decision with the engine signals, failure
records Hold with the error message). -/
def nsRecOf (f : String → TickerOutcome) (t : String) : TickerRec :=
  match f t with
  | TickerOutcome.ok o => ⟨pyNorm (some o.propagate_decision), engineSig o⟩
  | TickerOutcome.raise _ msg => ⟨"Hold", Signals.error msg⟩

/-- The summary line the non-streaming adapter produces per ticker: note the
failure line carries the word error instead of the as-of date. -/
def nsLineOf (f : String → TickerOutcome) (dateStr t : String) : String :=
  match f t with
  | TickerOutcome.ok o => t ++ ": " ++ pyNorm (some o.propagate_decision) ++ " (" ++ dateStr ++ ")"
  | TickerOutcome.raise _ _ => t ++ ": Hold (error)"

/-- The per-ticker loop of run_tradingagents_analysis (source lines 137-152),
accumulating the per_ticker dict and the summary lines. -/
def taLoop (f : String → TickerOutcome) (dateStr : String) :
    List String → List (String × TickerRec) × List String → List (String × TickerRec) × List String
  | [], acc => acc
  | t :: rest, acc =>
    match f t with
    | TickerOutcome.ok o =>
      let sug := pyNorm (some o.propagate_decision)
      taLoop f dateStr rest
        (setKey acc.1 t ⟨sug, engineSig o⟩, acc.2 ++ [t ++ ": " ++ sug ++ " (" ++ dateStr ++ ")"])
    | TickerOutcome.raise _ msg =>
      taLoop f dateStr rest
        (setKey acc.1 t ⟨"Hold", Signals.error msg⟩, acc.2 ++ [t ++ ": Hold (error)"])

/-- run_tradingagents_analysis (source lines 81-155). -/
def run_tradingagents_analysis (eng : EngineResult) (tickers : List String)
    (dateStr : String) : AnalysisResult :=
  match eng with
  | EngineResult.notInstalled _ =>
    { summary := "TradingAgents not installed; using Hold placeholder.",
      per_ticker := tickers.foldl (fun m t => setKey m t ⟨"Hold", Signals.stub⟩) [] }
  | EngineResult.importError msg =>
    { summary := "TradingAgents import error: " ++ msg,
      per_ticker := tickers.foldl (fun m t => setKey m t ⟨"Hold", Signals.error msg⟩) [] }
  | EngineResult.available f =>
    let r := taLoop f dateStr tickers ([], [])
    { summary := String.intercalate "\n" r.2, per_ticker := r.1 }

/-- analyze_post (source lines 394-428): run the adapter, rebuild the whole
snapshot, and replace the analysis bundle wholesale (the fresh dict carries
summary and per_ticker but no report key). -/
def analyze_post (eng : EngineResult) (price : String → Option ℚ) (today : String)
    (p : Post) : Post :=
  let tickers := p.tickers
  let ana := run_tradingagents_analysis eng tickers (dateOf p.optDate today)
  let snapshot := tickers.foldl (fun m t =>
    let cur := price t
    let buy := getBuy p.purchases t
    let pct := if buy = none then none else percent_change buy cur
    setKey m t ⟨cur, pct⟩) []
  { p with
      analysis := some { report := none, per_ticker := some ana.per_ticker, summary := some ana.summary },
      snapshot := snapshot }

-- -------------------
-- Streaming pipeline (analyze_post_stream.gen, source lines 458-656)
-- -------------------

/-- Progress events of the stream (source event dicts, in emission order). -/
inductive Event where
  | start (id : String) (tickers : List String)
  | tickerStart (t : String)
  | log (t msg : String)
  | tickerDone (t sug : String) (cur pct : Option ℚ)
  | tickerError (t err : String)
  | error (msg : String)
  | done (id : String)
deriving DecidableEq

/-- Kinds of store transactions (_update_post calls) the generator performs. -/
inductive Txn where
  | initAnalysis
  | logAppend
  | updPerTicker
  | updSnapshot
  | setSummary
deriving DecidableEq

/-- The evolving run: the post as persisted, the emitted events, and the
store transactions performed, in order. -/
structure RunState where
  post : Post
  events : List Event
  txns : List Txn

/-- Plain constructor shorthand for run states. -/
def mkRunState (p : Post) (evs : List Event) (txs : List Txn) : RunState :=
  { post := p, events := evs, txns := txs }

/-- init_analysis (source lines 474-483): give the analysis dict its report
and per_ticker keys when absent. -/
def init_analysis (p : Post) : Post :=
  let ana := p.analysis.getD { report := none, per_ticker := none, summary := none }
  { p with analysis := some { ana with
      report := some (ana.report.getD ""),
      per_ticker := some (ana.per_ticker.getD []) } }

/-- Append already-wrapped text to the report, separated by a newline when
the report is non-empty (the log_line / log_err mutators). -/
def appendReport (wrapped : String) (p : Post) : Post :=
  let q := init_analysis p
  match q.analysis with
  | some ana =>
    let rep := ana.report.getD ""
    { q with analysis := some { ana with
        report := some (rep ++ (if rep = "" then "" else "\n") ++ wrapped) } }
  | none => q

/-- log_line (source lines 521-528): wrap then append. -/
def logLine (msg : String) (p : Post) : Post :=
  appendReport (wrap_text msg) p

/-- The upd mutator (source lines 598-603): record a per-ticker result. -/
def updPerTickerRec (t : String) (rec : TickerRec) (p : Post) : Post :=
  let q := init_analysis p
  match q.analysis with
  | some ana =>
    { q with analysis := some { ana with
        per_ticker := some (setKey (ana.per_ticker.getD []) t rec) } }
  | none => q

/-- The upd_err mutator (source lines 627-632): keep the previous suggestion
when present, else Hold; the signals become the error message. -/
def updPerTickerErr (t msg : String) (p : Post) : Post :=
  let q := init_analysis p
  match q.analysis with
  | some ana =>
    let per := ana.per_ticker.getD []
    let prev := ((lookupKey per t).map TickerRec.suggestion).getD "Hold"
    { q with analysis := some { ana with
        per_ticker := some (setKey per t ⟨prev, Signals.error msg⟩) } }
  | none => q

/-- The upd_snap mutator (source lines 614-617). -/
def updSnapshotRec (t : String) (cur pct : Option ℚ) (p : Post) : Post :=
  { p with snapshot := setKey p.snapshot t ⟨cur, pct⟩ }

/-- The set_summary mutator (source lines 644-648). -/
def setSummaryStr (s : String) (p : Post) : Post :=
  let q := init_analysis p
  match q.analysis with
  | some ana => { q with analysis := some { ana with summary := some s } }
  | none => q

/-- The decision chain of the streaming path (source lines 580-589): a
truthy final_trade_decision goes through process_signal (with the or-empty
default, and the raw string as fallback when that call raises); a falsy
result falls back to the last decision seen in the transcript, then Hold. -/
def streamDecision (o : OkOutcome) (lastSeen : Option String) : String :=
  let ftd := o.final_trade_decision.getD ""
  let d :=
    if ftd = "" then ""
    else
      match o.process_signal with
      | some r => r.getD ""
      | none => ftd
  if d = "" then lastSeen.getD "Hold" else d

/-- Processing of one streamed chunk (source lines 562-575): non-empty
stripped content is logged (store transaction plus log event) and scanned
for a decision cue. -/
def chunkStep (t : String) (acc : RunState × Option String) (c : String) : RunState × Option String :=
  let text := pyStrip c
  if text = "" then acc
  else
    let st := acc.1
    let st2 : RunState :=
      { post := logLine (t ++ ": " ++ text) st.post,
        events := st.events ++ [Event.log t text],
        txns := st.txns ++ [Txn.logAppend] }
    match deriveDecision text with
    | some d => (st2, some d)
    | none => (st2, acc.2)

/-- All chunks of one ticker, threading the last-decision-seen value. -/
def processChunks (t : String) (chunks : List String) (st : RunState) : RunState × Option String :=
  chunks.foldl (chunkStep t) (st, none)

/-- One ticker of the streaming loop (source lines 530-633). -/
def processTicker (price : String → Option ℚ) (purch : Purchases)
    (f : String → TickerOutcome) (st : RunState) (t : String) : RunState :=
  let st0 : RunState := { st with events := st.events ++ [Event.tickerStart t] }
  match f t with
  | TickerOutcome.ok o =>
    let r := processChunks t o.chunks st0
    let st1 := r.1
    let decision := streamDecision o r.2
    let norm := inlineNorm decision
    let st2 : RunState :=
      { post := updPerTickerRec t ⟨norm, engineSig o⟩ st1.post,
        events := st1.events, txns := st1.txns ++ [Txn.updPerTicker] }
    let cur := price t
    let buy := getBuy purch t
    let pct := if buy = none then none else percent_change buy cur
    let st3 : RunState :=
      { post := updSnapshotRec t cur pct st2.post,
        events := st2.events, txns := st2.txns ++ [Txn.updSnapshot] }
    { st3 with events := st3.events ++ [Event.tickerDone t norm cur pct] }
  | TickerOutcome.raise pre msg =>
    let r := processChunks t pre st0
    let st1 := r.1
    let st2 : RunState :=
      if pyContains msg "already exists" && pyContains (pyLower msg) "memory" then
        { post := logLine (t ++ ": warning Memory collection already exists; reusing existing memory.") st1.post,
          events := st1.events, txns := st1.txns ++ [Txn.logAppend] }
      else
        { post := logLine (t ++ ": error " ++ msg) st1.post,
          events := st1.events, txns := st1.txns ++ [Txn.logAppend] }
    let st3 : RunState :=
      { post := updPerTickerErr t msg st2.post,
        events := st2.events, txns := st2.txns ++ [Txn.updPerTicker] }
    { st3 with events := st3.events ++ [Event.tickerError t msg] }

/-- The whole generator of analyze_post_stream (source lines 472-649), for a
post that exists (the route returns 404 before starting the stream
otherwise).  Concurrent writers are not modelled: within one run each store
transaction operates on the state the previous one persisted. -/
def streamRun (eng : EngineResult) (price : String → Option ℚ) (today : String)
    (p0 : Post) : RunState :=
  let tickers := p0.tickers
  let dateStr := dateOf p0.optDate today
  let st0 : RunState :=
    { post := init_analysis p0,
      events := [Event.start p0.id tickers],
      txns := [Txn.initAnalysis] }
  match eng with
  | EngineResult.notInstalled msg =>
    { post := logLine ("ERROR: " ++ msg) st0.post,
      events := st0.events ++ [Event.error ("TradingAgents import error: " ++ msg)],
      txns := st0.txns ++ [Txn.logAppend] }
  | EngineResult.importError msg =>
    { post := logLine ("ERROR: " ++ msg) st0.post,
      events := st0.events ++ [Event.error ("TradingAgents import error: " ++ msg)],
      txns := st0.txns ++ [Txn.logAppend] }
  | EngineResult.available f =>
    let st := tickers.foldl (processTicker price p0.purchases f) st0
    let per := perOf st.post
    let lines := tickers.map (fun tk =>
      tk ++ ": " ++ (((lookupKey per tk).map TickerRec.suggestion).getD "") ++ " (" ++ dateStr ++ ")")
    let st2 : RunState :=
      { post := setSummaryStr (String.intercalate "\n" lines) st.post,
        events := st.events, txns := st.txns ++ [Txn.setSummary] }
    { st2 with events := st2.events ++ [Event.done p0.id] }

-- -------------------
-- Accessors and validity predicates
-- -------------------

/-- The stored summary, when present. -/
def summaryOf (p : Post) : Option String :=
  match p.analysis with
  | some a => a.summary
  | none => none

/-- The stored report, when present. -/
def reportOf (p : Post) : Option String :=
  match p.analysis with
  | some a => a.report
  | none => none

def isErrorEv : Event → Bool
  | Event.error _ => true
  | _ => false

def isTickerErrorEv : Event → Bool
  | Event.tickerError _ _ => true
  | _ => false

def isLogAppend : Txn → Bool
  | Txn.logAppend => true
  | _ => false

/-- A suggestion the program itself ever stores. -/
def validSuggestion (s : String) : Bool :=
  decide (s = "Buy") || decide (s = "Sell") || decide (s = "Hold")

/-- Every per_ticker entry of the mapping has a Buy/Sell/Hold suggestion. -/
def validPerMap (m : List (String × TickerRec)) : Bool :=
  m.all (fun kv => validSuggestion kv.2.suggestion)

/-- Every per_ticker entry of the post has a Buy/Sell/Hold suggestion. -/
def validPost (p : Post) : Bool :=
  validPerMap (perOf p)

-- -------------------
-- Concrete instances used by counterexamples and witnesses
-- -------------------

/-- A fresh post: one ticker, a fixed as-of date, no analysis yet. -/
def cPostFresh : Post :=
  { id := "p1", tickers := ["A"], optDate := some "2025-01-01",
    purchases := Purchases.dict [], analysis := none, snapshot := [] }

/-- A post with a previously recorded Buy suggestion for its ticker. -/
def cPostBuy : Post :=
  { id := "p1", tickers := ["A"], optDate := some "2025-01-01",
    purchases := Purchases.dict [],
    analysis := some { report := some "", per_ticker := some [("A", ⟨"Buy", Signals.stub⟩)], summary := none },
    snapshot := [] }

/-- A ticker behaviour raising a generic exception. -/
def cFBoom : String → TickerOutcome := fun _ => TickerOutcome.raise [] "boom"

/-- An engine that raises a generic exception for every ticker. -/
def cEngBoom : EngineResult :=
  EngineResult.available cFBoom

/-- A ticker behaviour raising the benign duplicate-memory exception. -/
def cFMem : String → TickerOutcome :=
  fun _ => TickerOutcome.raise [] "Memory collection already exists"

/-- An engine that raises the benign duplicate-memory exception. -/
def cEngMem : EngineResult :=
  EngineResult.available cFMem

/-- A price feed that always fails. -/
def cPriceNone : String → Option ℚ := fun _ => none

/-- A second post with a distinct id. -/
def cPost2 : Post :=
  { id := "p2", tickers := [], optDate := none, purchases := Purchases.scalar 1,
    analysis := none, snapshot := [] }

/-- A sample mutator used by store witnesses. -/
def cMut : Post → Post := fun p => { p with tickers := ["Z"] }

/-- A mutator that raises. -/
def cMutFail : Post → Except String Post := fun _ => Except.error "mutator blew up"

/-- A successful engine outcome whose observed decision strings say buy. -/
def cOkBuy : OkOutcome :=
  { chunks := ["FINAL TRANSACTION PROPOSAL: BUY"], final_trade_decision := some "BUY",
    investment_plan := none, judge_invest := none, judge_risk := none,
    process_signal := some (some "BUY"), propagate_decision := "BUY" }

/-- A ticker behaviour completing successfully. -/
def cFOk : String → TickerOutcome := fun _ => TickerOutcome.ok cOkBuy

/-- An engine that completes successfully for every ticker. -/
def cEngOk : EngineResult :=
  EngineResult.available cFOk

-- -------------------
-- Lemmas about the string primitives
-- -------------------

theorem containsSeg_iff (l pat : List Char) :
    containsSeg l pat = true ↔ ∃ a b, a ++ (pat ++ b) = l := by
  constructor
  · intro h
    simp only [containsSeg, List.any_eq_true, List.mem_range, decide_eq_true_eq] at h
    obtain ⟨i, _, hi⟩ := h
    have hsplit : pat ++ (l.drop i).drop pat.length = l.drop i := by
      conv_rhs => rw [← List.take_append_drop pat.length (l.drop i)]
      rw [hi]
    refine ⟨l.take i, (l.drop i).drop pat.length, ?_⟩
    rw [hsplit, List.take_append_drop]
  · rintro ⟨a, b, rfl⟩
    simp only [containsSeg, List.any_eq_true, List.mem_range, decide_eq_true_eq]
    refine ⟨a.length, ?_, ?_⟩
    · simp only [List.length_append]
      omega
    · rw [List.drop_left, List.take_left]

theorem containsSeg_of_parts (l pat a b : List Char) (h : a ++ (pat ++ b) = l) :
    containsSeg l pat = true :=
  (containsSeg_iff l pat).2 ⟨a, b, h⟩

theorem containsSeg_trans (l m pat : List Char) (hm : containsSeg m pat = true)
    (h : ∃ a b, a ++ (m ++ b) = l) : containsSeg l pat = true := by
  obtain ⟨x, y, hxy⟩ := (containsSeg_iff m pat).1 hm
  obtain ⟨a, b, hab⟩ := h
  refine (containsSeg_iff l pat).2 ⟨a ++ x, y ++ b, ?_⟩
  rw [← hab, ← hxy]
  simp [List.append_assoc]

theorem dropWhile_seg (p : Char → Bool) (c : Char) (cs b : List Char)
    (hc : p c = false) :
    ∀ a : List Char, (a ++ ((c :: cs) ++ b)).dropWhile p
      = a.dropWhile p ++ ((c :: cs) ++ b) := by
  intro a
  have hc2 : ¬ p c = true := by simp [hc]
  induction a with
  | nil => simp [List.dropWhile_cons_of_neg hc2]
  | cons x xs ih =>
    by_cases hx : p x = true
    · simpa only [List.cons_append, List.dropWhile_cons_of_pos hx] using ih
    · simp only [List.cons_append, List.dropWhile_cons_of_neg hx]

theorem stripList_sub (l : List Char) : ∃ a b, a ++ (stripList l ++ b) = l := by
  obtain ⟨a, ha⟩ : (l.dropWhile wsB) <:+ l := List.dropWhile_suffix wsB
  obtain ⟨x, hx⟩ : ((l.dropWhile wsB).reverse.dropWhile wsB) <:+ (l.dropWhile wsB).reverse :=
    List.dropWhile_suffix wsB
  refine ⟨a, x.reverse, ?_⟩
  have h2 : stripList l ++ x.reverse = l.dropWhile wsB := by
    have := congrArg List.reverse hx
    simpa [stripList, List.reverse_append] using this
  rw [h2, ha]

theorem stripList_seg (l pat : List Char) (hne : pat ≠ [])
    (hws : ∀ c ∈ pat, wsB c = false) (h : containsSeg l pat = true) :
    containsSeg (stripList l) pat = true := by
  obtain ⟨a, b, hab⟩ := (containsSeg_iff l pat).1 h
  obtain ⟨c, cs, rfl⟩ : ∃ c cs, pat = c :: cs := by
    cases pat with
    | nil => exact absurd rfl hne
    | cons c cs => exact ⟨c, cs, rfl⟩
  have hc : wsB c = false := hws c (by simp)
  have step1 : (l.dropWhile wsB) = a.dropWhile wsB ++ ((c :: cs) ++ b) := by
    rw [← hab]
    exact dropWhile_seg wsB c cs b hc a
  obtain ⟨d, ds, hrev, hd⟩ :
      ∃ d ds, (c :: cs).reverse = d :: ds ∧ wsB d = false := by
    cases hrv : (c :: cs).reverse with
    | nil => exact absurd (List.reverse_eq_nil_iff.1 hrv) (by simp)
    | cons d ds =>
      refine ⟨d, ds, rfl, ?_⟩
      have : d ∈ (c :: cs).reverse := by
        rw [hrv]
        simp
      exact hws d (List.mem_reverse.1 this)
  have step2 : (l.dropWhile wsB).reverse
      = b.reverse ++ ((d :: ds) ++ (a.dropWhile wsB).reverse) := by
    rw [step1, ← hrev]
    simp [List.reverse_append, List.append_assoc]
  have step3 : (l.dropWhile wsB).reverse.dropWhile wsB
      = b.reverse.dropWhile wsB ++ ((d :: ds) ++ (a.dropWhile wsB).reverse) := by
    rw [step2]
    exact dropWhile_seg wsB d ds _ hd b.reverse
  have step4 : stripList l
      = a.dropWhile wsB ++ ((c :: cs) ++ (b.reverse.dropWhile wsB).reverse) := by
    unfold stripList
    rw [step3, ← hrev]
    simp [List.reverse_append, List.append_assoc]
  exact containsSeg_of_parts _ _ _ _ step4.symm

theorem toLower_of_ws (c : Char) (h : wsB c = true) : Char.toLower c = c := by
  simp only [wsB, Char.isWhitespace, Bool.or_eq_true, decide_eq_true_eq] at h
  rcases h with ((rfl | rfl) | rfl) | rfl <;> decide

theorem seg_lower_strip (l : List Char) (pat : List Char) (hne : pat ≠ [])
    (hplow : ∀ c ∈ pat, wsB c = false) :
    containsSeg (l.map Char.toLower) pat = true
      ↔ containsSeg ((stripList l).map Char.toLower) pat = true := by
  constructor
  · intro h
    obtain ⟨a, b, hab⟩ := (containsSeg_iff _ pat).1 h
    rw [← List.append_assoc] at hab
    obtain ⟨l₁, l₂, rfl, hmap1, hmap2⟩ := List.map_eq_append_iff.1 hab.symm
    obtain ⟨m₁, m₂, rfl, hm1, hm2⟩ := List.map_eq_append_iff.1 hmap1
    have hmws : ∀ c ∈ m₂, wsB c = false := by
      intro c hcm
      cases hq : wsB c with
      | false => rfl
      | true =>
        have hmem : Char.toLower c ∈ pat := by
          rw [← hm2]
          exact List.mem_map_of_mem Char.toLower hcm
        rw [toLower_of_ws c hq] at hmem
        have hfalse := hplow c hmem
        rw [hq] at hfalse
        exact absurd hfalse (by decide)
    have hmne : m₂ ≠ [] := by
      intro hnil
      rw [hnil] at hm2
      simp only [List.map_nil] at hm2
      exact hne hm2.symm
    have hseg : containsSeg (m₁ ++ m₂ ++ l₂) m₂ = true := by
      refine containsSeg_of_parts _ _ m₁ l₂ ?_
      simp [List.append_assoc]
    have hstr : containsSeg (stripList (m₁ ++ m₂ ++ l₂)) m₂ = true :=
      stripList_seg _ _ hmne hmws hseg
    obtain ⟨x, y, hxy⟩ := (containsSeg_iff _ m₂).1 hstr
    refine (containsSeg_iff _ pat).2 ⟨x.map Char.toLower, y.map Char.toLower, ?_⟩
    rw [← hm2, ← List.map_append, ← List.map_append, hxy]
  · intro h
    obtain ⟨a, b, hab⟩ := stripList_sub l
    refine containsSeg_trans _ ((stripList l).map Char.toLower) pat h
      ⟨a.map Char.toLower, b.map Char.toLower, ?_⟩
    rw [← List.map_append, ← List.map_append, hab]

/-- Stripping first does not change whether a whitespace-free pattern occurs
in the lowercased text. -/
theorem pyContains_lower_strip (s pat : String) (hne : pat.data ≠ [])
    (hws : ∀ c ∈ pat.data, wsB c = false) :
    pyContains (pyLower s) pat = pyContains (pyLower (pyStrip s)) pat := by
  have h := seg_lower_strip s.data pat.data hne hws
  show containsSeg (s.data.map Char.toLower) pat.data
      = containsSeg ((stripList s.data).map Char.toLower) pat.data
  cases hc : containsSeg (s.data.map Char.toLower) pat.data with
  | true => exact (h.1 hc).symm
  | false =>
    cases hd : containsSeg ((stripList s.data).map Char.toLower) pat.data with
    | true => exact absurd (h.2 hd) (by simp [hc])
    | false => rfl

-- -------------------
-- Small Option / list helpers
-- -------------------

theorem getLast?_mem_list {α : Type} {l : List α} {a : α} (h : l.getLast? = some a) : a ∈ l := by
  obtain ⟨hne, heq⟩ := List.mem_getLast?_eq_getLast (x := a) (Option.mem_def.mpr h)
  rw [heq]
  exact List.getLast_mem hne

/-- A fold that keeps the last produced value equals the last element of the
filterMap, with the start value as default. -/
theorem foldl_lastDecision {α : Type} (f : α → Option String) (l : List α) :
    ∀ acc : Option String,
      l.foldl (fun d x => match f x with | some y => some y | none => d) acc
        = match (l.filterMap f).getLast? with | some y => some y | none => acc := by
  induction l with
  | nil =>
    intro acc
    simp
  | cons x xs ih =>
    intro acc
    rw [List.foldl_cons]
    cases hf : f x with
    | none =>
      simp only [hf]
      rw [ih]
      simp [List.filterMap_cons, hf]
    | some d =>
      simp only [hf]
      rw [ih]
      simp only [List.filterMap_cons, hf]
      cases hLast : (xs.filterMap f).getLast? with
      | some y =>
        have hne : xs.filterMap f ≠ [] := by
          intro hnil
          rw [hnil] at hLast
          simp at hLast
        obtain ⟨z, zs, hzz⟩ : ∃ z zs, xs.filterMap f = z :: zs := by
          cases hq : xs.filterMap f with
          | nil => exact absurd hq hne
          | cons z zs => exact ⟨z, zs, rfl⟩
        rw [hzz] at hLast
        rw [hzz, List.getLast?_cons_cons, hLast]
      | none =>
        have hnil : xs.filterMap f = [] := List.getLast?_eq_none_iff.1 hLast
        rw [hnil]
        simp

theorem lineDecision_some_marker (tk line d : String) (h : lineDecision tk line = some d) :
    (pyContains (pyLower line) "final" || pyContains (pyLower line) "proposal"
      || pyContains (pyLower line) "decision" || pyContains (pyLower line) ":") = true := by
  cases hq : (pyContains (pyLower line) "final" || pyContains (pyLower line) "proposal"
      || pyContains (pyLower line) "decision" || pyContains (pyLower line) ":") with
  | true => rfl
  | false =>
    by_cases ht : pyContains (pyUpper line) (pyUpper tk) = false
    · simp [lineDecision, ht] at h
    · simp [lineDecision, ht, hq] at h

theorem lineDecision_none_of_no_marker (tk line : String)
    (h : (pyContains (pyLower line) "final" || pyContains (pyLower line) "proposal"
      || pyContains (pyLower line) "decision" || pyContains (pyLower line) ":") = false) :
    lineDecision tk line = none := by
  by_cases ht : pyContains (pyUpper line) (pyUpper tk) = false <;> simp [lineDecision, ht, h]

-- -------------------
-- Claim C7
-- -------------------

/-- Claim C7: percent_change(purchase, current) is None if and only if
purchase is None, current is None, or purchase equals zero; in every other
case it equals (current - purchase) / purchase * 100 exactly. -/
theorem c7_percent_change (purchase current : Option ℚ) :
    (percent_change purchase current = none
      ↔ purchase = none ∨ current = none ∨ purchase = some 0)
    ∧ (∀ vp vc : ℚ, purchase = some vp → current = some vc → vp ≠ 0 →
        percent_change purchase current = some ((vc - vp) / vp * 100)) := by
  cases purchase with
  | none => simp [percent_change]
  | some vp =>
    cases current with
    | none => simp [percent_change]
    | some vc =>
      constructor
      · by_cases h : vp = 0 <;> simp [percent_change, h]
      · rintro a b ha hb hne
        injection ha with ha
        injection hb with hb
        subst ha
        subst hb
        simp [percent_change, hne]

/-- Witness for C7 at concrete inputs. -/
theorem c7_percent_change_witness :
    percent_change (some 2) (some 3) = some 50 ∧ percent_change (some 0) (some 3) = none := by
  constructor
  · have h := (c7_percent_change (some 2) (some 3)).2 2 3 rfl rfl (by norm_num)
    rw [h]
    norm_num
  · exact (c7_percent_change (some 0) (some 3)).1.mpr (Or.inr (Or.inr rfl))

-- -------------------
-- Claim C6
-- -------------------

/-- Claim C6: the lenient normalizer is total and follows the fixed
priority: every input maps to exactly one of Buy, Sell, Hold; Buy whenever
the lowercased text contains buy (even together with sell), Sell when it
contains sell but not buy, and Hold otherwise, including empty or None-like
input.  The inline streaming normalizer obeys the same priority. -/
theorem c6_norm (s : String) :
    (pyNorm (some s) = "Buy" ∨ pyNorm (some s) = "Sell" ∨ pyNorm (some s) = "Hold")
    ∧ (pyContains (pyLower s) "buy" = true → pyNorm (some s) = "Buy")
    ∧ (pyContains (pyLower s) "sell" = true → pyContains (pyLower s) "buy" = false →
        pyNorm (some s) = "Sell")
    ∧ (pyContains (pyLower s) "buy" = false → pyContains (pyLower s) "sell" = false →
        pyNorm (some s) = "Hold")
    ∧ pyNorm none = "Hold"
    ∧ (inlineNorm s = "Buy" ∨ inlineNorm s = "Sell" ∨ inlineNorm s = "Hold")
    ∧ (pyContains (pyLower s) "buy" = true → inlineNorm s = "Buy") := by
  have hbuy := pyContains_lower_strip s "buy" (by decide) (by decide)
  have hsell := pyContains_lower_strip s "sell" (by decide) (by decide)
  refine ⟨?_, ?_, ?_, ?_, by decide, ?_, ?_⟩
  · cases hb : pyContains (pyLower (pyStrip s)) "buy" with
    | true =>
      left
      simp [pyNorm, hb]
    | false =>
      cases hs : pyContains (pyLower (pyStrip s)) "sell" with
      | true =>
        right; left
        simp [pyNorm, hb, hs]
      | false =>
        right; right
        simp [pyNorm, hb, hs]
  · intro h
    have h2 : pyContains (pyLower (pyStrip s)) "buy" = true := by
      rw [← hbuy]
      exact h
    simp [pyNorm, h2]
  · intro hs hbf
    have hs2 : pyContains (pyLower (pyStrip s)) "sell" = true := by
      rw [← hsell]
      exact hs
    have hb2 : pyContains (pyLower (pyStrip s)) "buy" = false := by
      rw [← hbuy]
      exact hbf
    simp [pyNorm, hb2, hs2]
  · intro hbf hsf
    have hb2 : pyContains (pyLower (pyStrip s)) "buy" = false := by
      rw [← hbuy]
      exact hbf
    have hs2 : pyContains (pyLower (pyStrip s)) "sell" = false := by
      rw [← hsell]
      exact hsf
    simp [pyNorm, hb2, hs2]
  · cases hb : pyContains (pyLower s) "buy" with
    | true =>
      left
      simp [inlineNorm, hb]
    | false =>
      cases hs : pyContains (pyLower s) "sell" with
      | true =>
        right; left
        simp [inlineNorm, hb, hs]
      | false =>
        right; right
        simp [inlineNorm, hb, hs]
  · intro h
    simp [inlineNorm, h]

/-- Witness for C6 at concrete inputs. -/
theorem c6_norm_witness :
    pyNorm (some " BUY or sell ") = "Buy" ∧ inlineNorm "sell buy" = "Buy" := by
  constructor
  · exact (c6_norm " BUY or sell ").2.1 (by decide)
  · exact (c6_norm "sell buy").2.2.2.2.2.2 (by decide)

-- -------------------
-- Claim C5
-- -------------------

/-- Claim C5 counterexample: the streaming strict scanner
_derive_decision_from_text returns Buy for a text that mentions buy but
contains none of the decision markers (final, proposal, decision, colon),
contradicting the claim that such text yields no decision. -/
theorem c5_counterexample :
    deriveDecision "please buy now" = some "Buy"
    ∧ pyContains (pyLower "please buy now") "final" = false
    ∧ pyContains (pyLower "please buy now") "proposal" = false
    ∧ pyContains (pyLower "please buy now") "decision" = false
    ∧ pyContains (pyLower "please buy now") ":" = false := by
  refine ⟨?_, ?_, ?_, ?_, ?_⟩ <;> decide

/-- Claim C5 (amended): the line-based scanner parse_from_report behaves as
claimed: it equals the decision of the last line accepted by lineDecision,
every returned decision comes from a line containing one of the markers
final, proposal, decision or a colon, and marker-free text yields no
decision.  The streaming scanner _derive_decision_from_text, however, is
equivalent to the unguarded buy/sell/hold scan on non-empty text: its
marker gate (which also never tests the colon) is vacuous, so marker-free
text with a buy/sell/hold mention still yields a decision. -/
theorem c5_scanner_behaviour (rt tk text : String) :
    (parse_from_report rt tk
      = if rt = "" then none else ((pySplitlines rt).filterMap (lineDecision tk)).getLast?)
    ∧ (∀ d, parse_from_report rt tk = some d →
        ∃ line ∈ pySplitlines rt, lineDecision tk line = some d
          ∧ (pyContains (pyLower line) "final" || pyContains (pyLower line) "proposal"
              || pyContains (pyLower line) "decision" || pyContains (pyLower line) ":") = true)
    ∧ ((∀ line ∈ pySplitlines rt,
        (pyContains (pyLower line) "final" || pyContains (pyLower line) "proposal"
          || pyContains (pyLower line) "decision" || pyContains (pyLower line) ":") = false)
        → parse_from_report rt tk = none)
    ∧ (deriveDecision text = if pyLower text = "" then none else bshScan (pyLower text)) := by
  have hid : ∀ x : Option String,
      (match x with | some y => some y | none => (none : Option String)) = x := by
    intro x
    cases x <;> rfl
  have hpar : parse_from_report rt tk
      = if rt = "" then none else ((pySplitlines rt).filterMap (lineDecision tk)).getLast? := by
    unfold parse_from_report
    by_cases hrt : rt = ""
    · simp [hrt]
    · rw [if_neg hrt, if_neg hrt, foldl_lastDecision (lineDecision tk) (pySplitlines rt) none, hid]
  refine ⟨hpar, ?_, ?_, ?_⟩
  · intro d hd
    rw [hpar] at hd
    by_cases hrt : rt = ""
    · rw [if_pos hrt] at hd
      exact absurd hd (by simp)
    · rw [if_neg hrt] at hd
      obtain ⟨line, hline, hdec⟩ := List.mem_filterMap.1 (getLast?_mem_list hd)
      exact ⟨line, hline, hdec, lineDecision_some_marker tk line d hdec⟩
  · intro hall
    rw [hpar]
    by_cases hrt : rt = ""
    · simp [hrt]
    · rw [if_neg hrt]
      have hnil : (pySplitlines rt).filterMap (lineDecision tk) = [] := by
        rw [List.filterMap_eq_nil_iff]
        intro line hline
        exact lineDecision_none_of_no_marker tk line (hall line hline)
      rw [hnil]
      rfl
  · by_cases h0 : pyLower text = ""
    · simp [deriveDecision, h0]
    · by_cases hm : (pyContains (pyLower text) "final" || pyContains (pyLower text) "proposal"
          || pyContains (pyLower text) "decision") = true <;>
        by_cases hb : pyContains (pyLower text) "buy" = true <;>
        by_cases hs : pyContains (pyLower text) "sell" = true <;>
        by_cases hh : pyContains (pyLower text) "hold" = true <;>
        simp [deriveDecision, bshScan, h0, hm, hb, hs, hh]

/-- Witness for the amended C5 at concrete inputs: a marker-free report
yields no decision from parse_from_report, and the last deciding line of a
two-decision report wins. -/
theorem c5_scanner_behaviour_witness :
    parse_from_report "AAPL says buy" "AAPL" = none
    ∧ parse_from_report "AAPL final: buy\nAAPL decision: sell" "AAPL" = some "Sell" := by
  constructor
  · exact (c5_scanner_behaviour "AAPL says buy" "AAPL" "x").2.2.1 (by decide)
  · rw [(c5_scanner_behaviour "AAPL final: buy\nAAPL decision: sell" "AAPL" "x").1]
    decide

-- -------------------
-- Claims C8 and C10 (the store transaction primitive)
-- -------------------

theorem applyToFirst_append (pid : String) (m : Post → Post) :
    ∀ l₁ p l₂, (∀ q ∈ l₁, q.id ≠ pid) → p.id = pid →
      applyToFirst (l₁ ++ p :: l₂) pid m = l₁ ++ m p :: l₂ := by
  intro l₁
  induction l₁ with
  | nil =>
    intro p l₂ _ hp
    simp [applyToFirst, hp]
  | cons q qs ih =>
    intro p l₂ hq hp
    have hqne : q.id ≠ pid := hq q (by simp)
    simp only [List.cons_append, applyToFirst, if_neg hqne]
    exact congrArg (q :: ·) (ih p l₂ (fun r hr => hq r (by simp [hr])) hp)

/-- Claim C8: the store transaction primitive reads the full collection; when
a post with the given id exists it applies the mutator to the first such
post, persists the full collection and returns True; when none exists it
returns False and the persisted collection is unchanged. -/
theorem c8_update_post (posts : List Post) (pid : String) (mutator : Post → Post) :
    ((update_post posts pid mutator).1 = true ↔ ∃ p ∈ posts, p.id = pid)
    ∧ ((update_post posts pid mutator).1 = false → (update_post posts pid mutator).2 = posts)
    ∧ (∀ l₁ p l₂, posts = l₁ ++ p :: l₂ → (∀ q ∈ l₁, q.id ≠ pid) → p.id = pid →
        (update_post posts pid mutator).2 = l₁ ++ mutator p :: l₂) := by
  refine ⟨?_, ?_, ?_⟩
  · cases hf : findPost posts pid with
    | none =>
      simp only [update_post, hf]
      constructor
      · intro hfalse
        exact absurd hfalse (by simp)
      · rintro ⟨p, hp, hpid⟩
        have := List.find?_eq_none.1 hf p hp
        simp [hpid] at this
    | some p =>
      simp only [update_post, hf]
      constructor
      · intro _
        refine ⟨p, List.mem_of_find?_eq_some hf, ?_⟩
        have := List.find?_some hf
        simpa using this
      · intro _
        trivial
  · cases hf : findPost posts pid with
    | none =>
      intro _
      simp [update_post, hf]
    | some p =>
      intro hfalse
      simp [update_post, hf] at hfalse
  · intro l₁ p l₂ hsplit hl₁ hp
    subst hsplit
    cases hf : findPost (l₁ ++ p :: l₂) pid with
    | none =>
      have := List.find?_eq_none.1 hf p (by simp)
      simp [hp] at this
    | some q =>
      simp only [update_post, hf]
      exact applyToFirst_append pid mutator l₁ p l₂ hl₁ hp

/-- Witness for C8 at a concrete collection. -/
theorem c8_update_post_witness :
    (update_post [cPost2, cPostFresh] "p1" cMut).1 = true
    ∧ (update_post [cPost2, cPostFresh] "p1" cMut).2 = [cPost2, cMut cPostFresh]
    ∧ (update_post [cPost2, cPostFresh] "zz" cMut).2 = [cPost2, cPostFresh] := by
  refine ⟨?_, ?_, ?_⟩
  · exact (c8_update_post [cPost2, cPostFresh] "p1" cMut).1.mpr ⟨cPostFresh, by decide⟩
  · exact (c8_update_post [cPost2, cPostFresh] "p1" cMut).2.2 [cPost2] cPostFresh []
      (by decide) (by decide) (by decide)
  · exact (c8_update_post [cPost2, cPostFresh] "zz" cMut).2.1 (by decide)

/-- Claim C10: when the mutator raises, _update_post propagates the
exception and the persisted collection is unchanged: the write step is
never reached, so a failing mutator cannot leave a partially mutated
collection in the store. -/
theorem c10_update_post_mutator_raises (posts : List Post) (pid : String)
    (mutator : Post → Except String Post) (p : Post) (e : String)
    (hfind : findPost posts pid = some p) (hmut : mutator p = Except.error e) :
    (update_post_try posts pid mutator).1 = Except.error e
    ∧ (update_post_try posts pid mutator).2 = posts := by
  constructor
  · simp [update_post_try, hfind, hmut]
  · simp [update_post_try, hfind, hmut]

/-- Witness for C10 at a concrete collection. -/
theorem c10_update_post_mutator_raises_witness :
    (update_post_try [cPost2, cPostFresh] "p1" cMutFail).1 = Except.error "mutator blew up"
    ∧ (update_post_try [cPost2, cPostFresh] "p1" cMutFail).2 = [cPost2, cPostFresh] :=
  c10_update_post_mutator_raises [cPost2, cPostFresh] "p1" cMutFail cPostFresh "mutator blew up"
    (by decide) (by rfl)

-- -------------------
-- Claim C9 (reorder)
-- -------------------

theorem find?_append_orElse {α : Type} (p : α → Bool) (l₁ l₂ : List α) :
    (l₁ ++ l₂).find? p = (l₁.find? p).orElse (fun _ => l₂.find? p) := by
  induction l₁ with
  | nil => simp
  | cons x xs ih =>
    cases hx : p x with
    | true => simp [List.find?_cons_of_pos _ hx]
    | false =>
      have hx2 : ¬ p x = true := by simp [hx]
      simp only [List.cons_append, List.find?_cons_of_neg _ hx2]
      rw [ih]

/-- With unique ids, the last-wins dict lookup coincides with the first
match. -/
theorem byId_eq_find? (posts : List Post) (pid : String)
    (hN : (posts.map Post.id).Nodup) :
    byId posts pid = posts.find? (fun p => decide (p.id = pid)) := by
  induction posts with
  | nil => rfl
  | cons p rest ih =>
    simp only [List.map_cons, List.nodup_cons] at hN
    obtain ⟨hhead, htail⟩ := hN
    have ihrev : rest.reverse.find? (fun q => decide (q.id = pid))
        = rest.find? (fun q => decide (q.id = pid)) := ih htail
    unfold byId
    rw [List.reverse_cons, find?_append_orElse, ihrev]
    by_cases hp : p.id = pid
    · have hnone : rest.find? (fun q => decide (q.id = pid)) = none := by
        rw [List.find?_eq_none]
        intro x hx
        simp only [decide_eq_true_eq]
        intro hxe
        exact hhead (List.mem_map.2 ⟨x, hx, hxe.trans hp.symm⟩)
      have h1 : ([p] : List Post).find? (fun q => decide (q.id = pid)) = some p :=
        List.find?_cons_of_pos _ (by simp [hp])
      have h2 : (p :: rest).find? (fun q => decide (q.id = pid)) = some p :=
        List.find?_cons_of_pos _ (by simp [hp])
      rw [hnone, h2]
      show ([p] : List Post).find? (fun q => decide (q.id = pid)) = some p
      exact h1
    · have h2 : (p :: rest).find? (fun q => decide (q.id = pid))
          = rest.find? (fun q => decide (q.id = pid)) :=
        List.find?_cons_of_neg _ (by simp [hp])
      rw [h2]
      cases hr : rest.find? (fun q => decide (q.id = pid)) with
      | some x => rfl
      | none =>
        have h1 : ([p] : List Post).find? (fun q => decide (q.id = pid))
            = ([] : List Post).find? (fun q => decide (q.id = pid)) :=
          List.find?_cons_of_neg _ (by simp [hp])
        show ([p] : List Post).find? (fun q => decide (q.id = pid)) = none
        rw [h1]
        rfl

theorem pass1_front (posts : List Post) :
    ∀ (order used : List String),
      (reorderPass1 posts order used).1
        = (dedupFirstFrom used (order.filter (fun pid => (byId posts pid).isSome))).filterMap
            (byId posts) := by
  intro order
  induction order with
  | nil =>
    intro used
    rfl
  | cons pid rest ih =>
    intro used
    cases hb : byId posts pid with
    | none =>
      have hfil : (pid :: rest).filter (fun q => (byId posts q).isSome)
          = rest.filter (fun q => (byId posts q).isSome) :=
        List.filter_cons_of_neg (by simp [hb])
      simp only [reorderPass1, hb]
      rw [hfil]
      exact ih used
    | some p =>
      have hfil : (pid :: rest).filter (fun q => (byId posts q).isSome)
          = pid :: rest.filter (fun q => (byId posts q).isSome) :=
        List.filter_cons_of_pos (by simp [hb])
      by_cases hu : pid ∈ used
      · simp only [reorderPass1, hb, if_pos hu]
        rw [hfil]
        simp only [dedupFirstFrom, if_pos hu]
        exact ih used
      · simp only [reorderPass1, hb, if_neg hu]
        rw [hfil]
        simp only [dedupFirstFrom, if_neg hu, List.filterMap_cons, hb]
        exact congrArg (p :: ·) (ih (pid :: used))

theorem pass1_used (posts : List Post) :
    ∀ (order used : List String) (x : String),
      x ∈ (reorderPass1 posts order used).2
        ↔ x ∈ used ∨ (x ∈ order ∧ (byId posts x).isSome = true) := by
  intro order
  induction order with
  | nil =>
    intro used x
    simp [reorderPass1]
  | cons pid rest ih =>
    intro used x
    cases hb : byId posts pid with
    | none =>
      simp only [reorderPass1, hb]
      rw [ih used x]
      constructor
      · rintro (hu | ⟨hr, hs⟩)
        · exact Or.inl hu
        · exact Or.inr ⟨List.mem_cons_of_mem _ hr, hs⟩
      · rintro (hu | ⟨hor, hs⟩)
        · exact Or.inl hu
        · rcases List.mem_cons.1 hor with rfl | hr
          · rw [hb] at hs
            simp at hs
          · exact Or.inr ⟨hr, hs⟩
    | some p =>
      have hsome : (byId posts pid).isSome = true := by
        rw [hb]
        rfl
      by_cases hu : pid ∈ used
      · simp only [reorderPass1, hb, if_pos hu]
        rw [ih used x]
        constructor
        · rintro (h1 | ⟨hr, hs⟩)
          · exact Or.inl h1
          · exact Or.inr ⟨List.mem_cons_of_mem _ hr, hs⟩
        · rintro (h1 | ⟨hor, hs⟩)
          · exact Or.inl h1
          · rcases List.mem_cons.1 hor with rfl | hr
            · exact Or.inl hu
            · exact Or.inr ⟨hr, hs⟩
      · simp only [reorderPass1, hb, if_neg hu]
        rw [ih (pid :: used) x]
        constructor
        · rintro (h1 | ⟨hr, hs⟩)
          · rcases List.mem_cons.1 h1 with rfl | h2
            · exact Or.inr ⟨List.mem_cons_self _ _, hsome⟩
            · exact Or.inl h2
          · exact Or.inr ⟨List.mem_cons_of_mem _ hr, hs⟩
        · rintro (h1 | ⟨hor, hs⟩)
          · exact Or.inl (List.mem_cons_of_mem _ h1)
          · rcases List.mem_cons.1 hor with rfl | hr
            · exact Or.inl (List.mem_cons_self _ _)
            · exact Or.inr ⟨hr, hs⟩

theorem pass2_filter (posts : List Post) (hN : (posts.map Post.id).Nodup) :
    ∀ used, reorderPass2 posts used = posts.filter (fun p => decide (¬ p.id ∈ used)) := by
  induction posts with
  | nil =>
    intro _
    rfl
  | cons p rest ih =>
    simp only [List.map_cons, List.nodup_cons] at hN
    obtain ⟨hhead, htail⟩ := hN
    intro used
    by_cases hu : p.id ∈ used
    · rw [show reorderPass2 (p :: rest) used = reorderPass2 rest used from by
        simp [reorderPass2, hu]]
      rw [List.filter_cons_of_neg (by simp [hu])]
      exact ih htail used
    · rw [show reorderPass2 (p :: rest) used = p :: reorderPass2 rest (p.id :: used) from by
        simp [reorderPass2, hu]]
      rw [List.filter_cons_of_pos (by simp [hu])]
      rw [ih htail (p.id :: used)]
      congr 1
      apply List.filter_congr
      intro q hq
      have hne : q.id ≠ p.id := by
        intro he
        exact hhead (List.mem_map.2 ⟨q, hq, he⟩)
      simp [List.mem_cons, hne]

theorem dedupFirstFrom_mem (l : List String) :
    ∀ (used : List String) (x : String),
      x ∈ dedupFirstFrom used l ↔ x ∈ l ∧ ¬ x ∈ used := by
  induction l with
  | nil =>
    intro used x
    simp [dedupFirstFrom]
  | cons y ys ih =>
    intro used x
    by_cases hy : y ∈ used
    · rw [show dedupFirstFrom used (y :: ys) = dedupFirstFrom used ys from by
        simp [dedupFirstFrom, hy]]
      rw [ih used x]
      constructor
      · rintro ⟨h1, h2⟩
        exact ⟨List.mem_cons_of_mem _ h1, h2⟩
      · rintro ⟨hor, h2⟩
        rcases List.mem_cons.1 hor with rfl | h1
        · exact absurd hy h2
        · exact ⟨h1, h2⟩
    · rw [show dedupFirstFrom used (y :: ys) = y :: dedupFirstFrom (y :: used) ys from by
        simp [dedupFirstFrom, hy]]
      constructor
      · intro hx
        rcases List.mem_cons.1 hx with rfl | h1
        · exact ⟨List.mem_cons_self _ _, hy⟩
        · obtain ⟨hys, hnu⟩ := (ih (y :: used) x).1 h1
          exact ⟨List.mem_cons_of_mem _ hys, fun hc => hnu (List.mem_cons_of_mem _ hc)⟩
      · rintro ⟨hor, h2⟩
        rcases List.mem_cons.1 hor with rfl | h1
        · exact List.mem_cons_self _ _
        · by_cases hxy : x = y
          · subst hxy
            exact List.mem_cons_self _ _
          · refine List.mem_cons_of_mem _ ((ih (y :: used) x).2 ⟨h1, ?_⟩)
            intro hc
            rcases List.mem_cons.1 hc with h3 | h3
            · exact hxy h3
            · exact h2 h3

theorem dedupFirstFrom_nodup (l : List String) :
    ∀ used : List String, (dedupFirstFrom used l).Nodup := by
  induction l with
  | nil =>
    intro _
    simp [dedupFirstFrom]
  | cons y ys ih =>
    intro used
    by_cases hy : y ∈ used
    · rw [show dedupFirstFrom used (y :: ys) = dedupFirstFrom used ys from by
        simp [dedupFirstFrom, hy]]
      exact ih used
    · rw [show dedupFirstFrom used (y :: ys) = y :: dedupFirstFrom (y :: used) ys from by
        simp [dedupFirstFrom, hy]]
      rw [List.nodup_cons]
      refine ⟨?_, ih (y :: used)⟩
      intro hc
      obtain ⟨_, hnu⟩ := (dedupFirstFrom_mem ys (y :: used) y).1 hc
      exact hnu (List.mem_cons_self _ _)

theorem byId_isSome_iff (posts : List Post) (pid : String) :
    (byId posts pid).isSome = true ↔ ∃ p ∈ posts, p.id = pid := by
  unfold byId
  rw [List.find?_isSome]
  constructor
  · rintro ⟨p, hp, hdec⟩
    exact ⟨p, List.mem_reverse.1 hp, by simpa using hdec⟩
  · rintro ⟨p, hp, hpid⟩
    exact ⟨p, List.mem_reverse.2 hp, by simpa using hpid⟩

theorem byId_some_mem (posts : List Post) (pid : String) (p : Post)
    (h : byId posts pid = some p) : p ∈ posts ∧ p.id = pid := by
  unfold byId at h
  exact ⟨List.mem_reverse.1 (List.mem_of_find?_eq_some h),
    by simpa using List.find?_some h⟩

theorem byId_unique (posts : List Post) (hN : (posts.map Post.id).Nodup)
    (q : Post) (hq : q ∈ posts) : byId posts q.id = some q := by
  rw [byId_eq_find? posts q.id hN]
  cases hf : posts.find? (fun p => decide (p.id = q.id)) with
  | none =>
    have := List.find?_eq_none.1 hf q hq
    simp at this
  | some r =>
    have hrmem := List.mem_of_find?_eq_some hf
    have hrid : r.id = q.id := by simpa using List.find?_some hf
    rw [List.inj_on_of_nodup_map hN hrmem hq hrid]

theorem front_map_id (posts : List Post) :
    ∀ l : List String, (∀ pid ∈ l, (byId posts pid).isSome = true) →
      ((l.filterMap (byId posts)).map Post.id) = l := by
  intro l
  induction l with
  | nil =>
    intro _
    rfl
  | cons pid rest ih =>
    intro hall
    have hsome := hall pid (List.mem_cons_self _ _)
    obtain ⟨p, hp⟩ := Option.isSome_iff_exists.1 hsome
    obtain ⟨_, hpid⟩ := byId_some_mem posts pid p hp
    simp only [List.filterMap_cons, hp, List.map_cons, hpid]
    exact congrArg (pid :: ·) (ih (fun q hq => hall q (List.mem_cons_of_mem _ hq)))

theorem front_mem (posts : List Post) (order : List String)
    (hN : (posts.map Post.id).Nodup) (q : Post) :
    q ∈ (dedupFirstFrom [] (order.filter (fun pid => (byId posts pid).isSome))).filterMap
        (byId posts)
      ↔ q ∈ posts ∧ q.id ∈ order := by
  constructor
  · intro hq
    obtain ⟨pid, hpid_mem, hpid_eq⟩ := List.mem_filterMap.1 hq
    obtain ⟨hmemf, _⟩ := (dedupFirstFrom_mem _ [] pid).1 hpid_mem
    obtain ⟨hmem_order, _⟩ := List.mem_filter.1 hmemf
    obtain ⟨hq_mem, hq_id⟩ := byId_some_mem posts pid q hpid_eq
    exact ⟨hq_mem, hq_id ▸ hmem_order⟩
  · rintro ⟨hq_mem, hq_id⟩
    refine List.mem_filterMap.2 ⟨q.id, ?_, byId_unique posts hN q hq_mem⟩
    refine (dedupFirstFrom_mem _ [] q.id).2 ⟨?_, by simp⟩
    refine List.mem_filter.2 ⟨hq_id, ?_⟩
    exact (byId_isSome_iff posts q.id).2 ⟨q, hq_mem, rfl⟩

theorem filter_append_not_perm {α : Type} (p : α → Bool) (l : List α) :
    (l.filter p ++ l.filter (fun a => !(p a))).Perm l := by
  induction l with
  | nil => simp
  | cons x xs ih =>
    cases hx : p x with
    | true =>
      rw [List.filter_cons_of_pos (by simp [hx]), List.filter_cons_of_neg (by simp [hx])]
      exact List.Perm.cons x ih
    | false =>
      rw [List.filter_cons_of_neg (by simp [hx]), List.filter_cons_of_pos (by simp [hx])]
      exact List.perm_middle.trans (List.Perm.cons x ih)

/-- Claim C9: for a stored collection (whose ids are unique, per the data
model invariant) and any requested id sequence, the reorder operation
produces a permutation of the collection: the posts whose ids appear in the
request come first in first-listing order with unknown and duplicate ids
ignored, all remaining posts follow in their prior relative order (the
spec_reorder form), and no post is lost or duplicated. -/
theorem c9_reorder_posts (posts : List Post) (order : List String)
    (hN : (posts.map Post.id).Nodup) :
    reorder_posts posts order = spec_reorder posts order
    ∧ (reorder_posts posts order).Perm posts := by
  have hfront := pass1_front posts order []
  have hpass2 : reorderPass2 posts (reorderPass1 posts order []).2
      = posts.filter (fun p => decide (¬ p.id ∈ order)) := by
    rw [pass2_filter posts hN]
    apply List.filter_congr
    intro q hq
    have hmem : q.id ∈ (reorderPass1 posts order []).2 ↔ q.id ∈ order := by
      rw [pass1_used posts order [] q.id]
      simp only [List.not_mem_nil, false_or]
      constructor
      · rintro ⟨h1, _⟩
        exact h1
      · intro h1
        exact ⟨h1, (byId_isSome_iff posts q.id).2 ⟨q, hq, rfl⟩⟩
    simp [hmem]
  have heq : reorder_posts posts order = spec_reorder posts order := by
    unfold reorder_posts spec_reorder
    rw [hfront, hpass2]
    congr 1
    have hfil : order.filter (fun pid => (byId posts pid).isSome)
        = order.filter (fun pid => posts.any (fun p => decide (p.id = pid))) := by
      apply List.filter_congr
      intro pid _
      cases hb : (byId posts pid).isSome with
      | true =>
        obtain ⟨p, hp, hpid⟩ := (byId_isSome_iff posts pid).1 hb
        have hany : posts.any (fun p => decide (p.id = pid)) = true :=
          List.any_eq_true.2 ⟨p, hp, by simp [hpid]⟩
        rw [hany]
      | false =>
        cases ha : posts.any (fun p => decide (p.id = pid)) with
        | false => rfl
        | true =>
          obtain ⟨p, hp, hpid⟩ := List.any_eq_true.1 ha
          have hsome : (byId posts pid).isSome = true :=
            (byId_isSome_iff posts pid).2 ⟨p, hp, by simpa using hpid⟩
          rw [hb] at hsome
          exact absurd hsome (by simp)
    rw [hfil]
    apply List.filterMap_congr
    intro pid _
    exact byId_eq_find? posts pid hN
  refine ⟨heq, ?_⟩
  have hposts_nodup : posts.Nodup := List.Nodup.of_map _ hN
  have hall : ∀ pid ∈ dedupFirstFrom [] (order.filter (fun pid => (byId posts pid).isSome)),
      (byId posts pid).isSome = true := by
    intro pid hpid
    obtain ⟨hm, _⟩ := (dedupFirstFrom_mem _ [] pid).1 hpid
    exact (List.mem_filter.1 hm).2
  have hperm_front :
      ((dedupFirstFrom [] (order.filter (fun pid => (byId posts pid).isSome))).filterMap
          (byId posts)).Perm
        (posts.filter (fun p => decide (p.id ∈ order))) := by
    refine (List.perm_ext_iff_of_nodup ?_ ?_).2 ?_
    · apply List.Nodup.of_map Post.id
      rw [front_map_id posts _ hall]
      exact dedupFirstFrom_nodup _ []
    · exact List.Nodup.filter _ hposts_nodup
    · intro q
      rw [front_mem posts order hN q, List.mem_filter]
      simp
  unfold reorder_posts
  rw [hfront, hpass2]
  refine (hperm_front.append_right (posts.filter (fun p => decide (¬ p.id ∈ order)))).trans ?_
  have hnot : posts.filter (fun p => decide (¬ p.id ∈ order))
      = posts.filter (fun a => !((fun p => decide (p.id ∈ order)) a)) := by
    apply List.filter_congr
    intro q _
    simp
  rw [hnot]
  exact filter_append_not_perm _ posts

/-- Witness for C9 at a concrete collection and order. -/
theorem c9_reorder_posts_witness :
    reorder_posts [cPostFresh, cPost2] ["p2", "zz", "p2"]
        = spec_reorder [cPostFresh, cPost2] ["p2", "zz", "p2"]
    ∧ (reorder_posts [cPostFresh, cPost2] ["p2", "zz", "p2"]).Perm [cPostFresh, cPost2] :=
  c9_reorder_posts [cPostFresh, cPost2] ["p2", "zz", "p2"] (by decide)

-- -------------------
-- Mapping and mutator frame lemmas for the streaming pipeline
-- -------------------

theorem lookupKey_cons {α : Type} (kv : String × α) (l : List (String × α)) (k : String) :
    lookupKey (kv :: l) k = if kv.1 = k then some kv.2 else lookupKey l k := by
  by_cases h : kv.1 = k
  · rw [if_pos h]
    unfold lookupKey
    rw [List.find?_cons_of_pos _ (by simp [h])]
    rfl
  · rw [if_neg h]
    unfold lookupKey
    rw [List.find?_cons_of_neg _ (by simp [h])]

theorem lookupKey_setKey_self {α : Type} (m : List (String × α)) (k : String) (v : α) :
    lookupKey (setKey m k v) k = some v := by
  induction m with
  | nil => simp [setKey, lookupKey_cons]
  | cons kv rest ih =>
    by_cases h : kv.1 = k
    · simp [setKey, if_pos h, lookupKey_cons]
    · simp only [setKey, if_neg h]
      rw [lookupKey_cons, if_neg h]
      exact ih

theorem lookupKey_setKey_ne {α : Type} (m : List (String × α)) (k u : String) (v : α)
    (h : u ≠ k) : lookupKey (setKey m k v) u = lookupKey m u := by
  induction m with
  | nil =>
    rw [show setKey ([] : List (String × α)) k v = [(k, v)] from rfl, lookupKey_cons]
    rw [if_neg (show ¬ (k, v).1 = u from fun hc => h hc.symm)]
  | cons kv rest ih =>
    by_cases hh : kv.1 = k
    · simp only [setKey, if_pos hh]
      rw [lookupKey_cons, lookupKey_cons]
      rw [if_neg (show ¬ (k, v).1 = u from fun hc => h hc.symm)]
      rw [if_neg (show ¬ kv.1 = u from by rw [hh]; exact fun hc => h hc.symm)]
    · simp only [setKey, if_neg hh]
      rw [lookupKey_cons, lookupKey_cons]
      by_cases hk : kv.1 = u
      · rw [if_pos hk, if_pos hk]
      · rw [if_neg hk, if_neg hk]
        exact ih

theorem mem_setKey {α : Type} (m : List (String × α)) (k : String) (v : α) (x : String × α)
    (hx : x ∈ setKey m k v) : x ∈ m ∨ x = (k, v) := by
  induction m with
  | nil =>
    simp only [setKey, List.mem_singleton] at hx
    exact Or.inr hx
  | cons kv rest ih =>
    by_cases h : kv.1 = k
    · simp only [setKey, if_pos h] at hx
      rcases List.mem_cons.1 hx with rfl | h2
      · exact Or.inr rfl
      · exact Or.inl (List.mem_cons_of_mem _ h2)
    · simp only [setKey, if_neg h] at hx
      rcases List.mem_cons.1 hx with rfl | h2
      · exact Or.inl (List.mem_cons_self _ _)
      · rcases ih h2 with h3 | h3
        · exact Or.inl (List.mem_cons_of_mem _ h3)
        · exact Or.inr h3

theorem lookupKey_some_mem {α : Type} (m : List (String × α)) (k : String) (v : α)
    (h : lookupKey m k = some v) : ∃ kv ∈ m, kv.1 = k ∧ kv.2 = v := by
  unfold lookupKey at h
  cases hf : m.find? (fun kv => decide (kv.1 = k)) with
  | none =>
    rw [hf] at h
    simp at h
  | some kv =>
    rw [hf] at h
    simp only [Option.map_some'] at h
    refine ⟨kv, List.mem_of_find?_eq_some hf, by simpa using List.find?_some hf, ?_⟩
    injection h

theorem init_analysis_id (p : Post) (rep : String) (per : List (String × TickerRec))
    (sum : Option String)
    (h : p.analysis = some { report := some rep, per_ticker := some per, summary := sum }) :
    init_analysis p = p := by
  simp only [init_analysis, h, Option.getD_some]
  rw [← h]

theorem perOf_init (p : Post) : perOf (init_analysis p) = perOf p := by
  cases hp : p.analysis with
  | none => simp [perOf, init_analysis, hp]
  | some a => simp [perOf, init_analysis, hp]

theorem summaryOf_init (p : Post) : summaryOf (init_analysis p) = summaryOf p := by
  cases hp : p.analysis with
  | none => simp [summaryOf, init_analysis, hp]
  | some a => simp [summaryOf, init_analysis, hp]

theorem snapshot_init (p : Post) : (init_analysis p).snapshot = p.snapshot := rfl

theorem perOf_appendReport (w : String) (p : Post) :
    perOf (appendReport w p) = perOf p := by
  cases hp : p.analysis with
  | none => simp [perOf, appendReport, init_analysis, hp]
  | some a => simp [perOf, appendReport, init_analysis, hp]

theorem summaryOf_appendReport (w : String) (p : Post) :
    summaryOf (appendReport w p) = summaryOf p := by
  cases hp : p.analysis with
  | none => simp [summaryOf, appendReport, init_analysis, hp]
  | some a => simp [summaryOf, appendReport, init_analysis, hp]

theorem snapshot_appendReport (w : String) (p : Post) :
    (appendReport w p).snapshot = p.snapshot := by
  cases hp : p.analysis with
  | none => simp [appendReport, init_analysis, hp]
  | some a => simp [appendReport, init_analysis, hp]

theorem perOf_updPerTickerRec (t : String) (rec : TickerRec) (p : Post) :
    perOf (updPerTickerRec t rec p) = setKey (perOf p) t rec := by
  cases hp : p.analysis with
  | none => simp [perOf, updPerTickerRec, init_analysis, hp]
  | some a => simp [perOf, updPerTickerRec, init_analysis, hp]

theorem summaryOf_updPerTickerRec (t : String) (rec : TickerRec) (p : Post) :
    summaryOf (updPerTickerRec t rec p) = summaryOf p := by
  cases hp : p.analysis with
  | none => simp [summaryOf, updPerTickerRec, init_analysis, hp]
  | some a => simp [summaryOf, updPerTickerRec, init_analysis, hp]

theorem snapshot_updPerTickerRec (t : String) (rec : TickerRec) (p : Post) :
    (updPerTickerRec t rec p).snapshot = p.snapshot := by
  cases hp : p.analysis with
  | none => simp [updPerTickerRec, init_analysis, hp]
  | some a => simp [updPerTickerRec, init_analysis, hp]

theorem perOf_updPerTickerErr (t msg : String) (p : Post) :
    perOf (updPerTickerErr t msg p)
      = setKey (perOf p) t
          ⟨((perLookup p t).map TickerRec.suggestion).getD "Hold", Signals.error msg⟩ := by
  cases hp : p.analysis with
  | none => simp [perOf, perLookup, updPerTickerErr, init_analysis, hp]
  | some a => simp [perOf, perLookup, updPerTickerErr, init_analysis, hp]

theorem summaryOf_updPerTickerErr (t msg : String) (p : Post) :
    summaryOf (updPerTickerErr t msg p) = summaryOf p := by
  cases hp : p.analysis with
  | none => simp [summaryOf, updPerTickerErr, init_analysis, hp]
  | some a => simp [summaryOf, updPerTickerErr, init_analysis, hp]

theorem snapshot_updPerTickerErr (t msg : String) (p : Post) :
    (updPerTickerErr t msg p).snapshot = p.snapshot := by
  cases hp : p.analysis with
  | none => simp [updPerTickerErr, init_analysis, hp]
  | some a => simp [updPerTickerErr, init_analysis, hp]

theorem perOf_updSnapshotRec (t : String) (cur pct : Option ℚ) (p : Post) :
    perOf (updSnapshotRec t cur pct p) = perOf p := rfl

theorem summaryOf_updSnapshotRec (t : String) (cur pct : Option ℚ) (p : Post) :
    summaryOf (updSnapshotRec t cur pct p) = summaryOf p := rfl

theorem perOf_setSummaryStr (s : String) (p : Post) :
    perOf (setSummaryStr s p) = perOf p := by
  cases hp : p.analysis with
  | none => simp [perOf, setSummaryStr, init_analysis, hp]
  | some a => simp [perOf, setSummaryStr, init_analysis, hp]

theorem summaryOf_setSummaryStr (s : String) (p : Post) :
    summaryOf (setSummaryStr s p) = some s := by
  cases hp : p.analysis with
  | none => simp [summaryOf, setSummaryStr, init_analysis, hp]
  | some a => simp [summaryOf, setSummaryStr, init_analysis, hp]

theorem snapshot_setSummaryStr (s : String) (p : Post) :
    (setSummaryStr s p).snapshot = p.snapshot := by
  cases hp : p.analysis with
  | none => simp [setSummaryStr, init_analysis, hp]
  | some a => simp [setSummaryStr, init_analysis, hp]

theorem perOf_logLine (msg : String) (p : Post) : perOf (logLine msg p) = perOf p :=
  perOf_appendReport _ p

theorem summaryOf_logLine (msg : String) (p : Post) :
    summaryOf (logLine msg p) = summaryOf p :=
  summaryOf_appendReport _ p

theorem snapshot_logLine (msg : String) (p : Post) :
    (logLine msg p).snapshot = p.snapshot :=
  snapshot_appendReport _ p

theorem chunkStep_frames (t : String) (acc : RunState × Option String) (c : String) :
    perOf (chunkStep t acc c).1.post = perOf acc.1.post
    ∧ summaryOf (chunkStep t acc c).1.post = summaryOf acc.1.post
    ∧ (chunkStep t acc c).1.post.snapshot = acc.1.post.snapshot := by
  unfold chunkStep
  by_cases hx : pyStrip c = ""
  · simp [hx]
  · cases hd : deriveDecision (pyStrip c) with
    | some d =>
      simp only [hx, if_neg, ite_false, hd]
      exact ⟨perOf_logLine _ _, summaryOf_logLine _ _, snapshot_logLine _ _⟩
    | none =>
      simp only [hx, if_neg, ite_false, hd]
      exact ⟨perOf_logLine _ _, summaryOf_logLine _ _, snapshot_logLine _ _⟩

theorem processChunks_frames (t : String) (chunks : List String) :
    ∀ acc : RunState × Option String,
      perOf (chunks.foldl (chunkStep t) acc).1.post = perOf acc.1.post
      ∧ summaryOf (chunks.foldl (chunkStep t) acc).1.post = summaryOf acc.1.post
      ∧ (chunks.foldl (chunkStep t) acc).1.post.snapshot = acc.1.post.snapshot := by
  induction chunks with
  | nil =>
    intro acc
    exact ⟨rfl, rfl, rfl⟩
  | cons c cs ih =>
    intro acc
    rw [List.foldl_cons]
    obtain ⟨h1, h2, h3⟩ := ih (chunkStep t acc c)
    obtain ⟨g1, g2, g3⟩ := chunkStep_frames t acc c
    exact ⟨h1.trans g1, h2.trans g2, h3.trans g3⟩

theorem inlineNorm_valid (d : String) : validSuggestion (inlineNorm d) = true := by
  unfold inlineNorm validSuggestion
  by_cases h1 : pyContains (pyLower d) "buy" = true <;>
    by_cases h2 : pyContains (pyLower d) "sell" = true <;> simp [h1, h2]

/-- One streaming ticker: the per_ticker mapping gains (or overwrites) the
entry for this ticker and nothing else; the summary is untouched; the new
suggestion is valid whenever the previous mapping was valid. -/
theorem processTicker_step (price : String → Option ℚ) (purch : Purchases)
    (f : String → TickerOutcome) (st : RunState) (t : String) :
    ∃ rec : TickerRec,
      perOf (processTicker price purch f st t).post = setKey (perOf st.post) t rec
      ∧ ((∀ kv ∈ perOf st.post, validSuggestion kv.2.suggestion = true) →
          validSuggestion rec.suggestion = true)
      ∧ summaryOf (processTicker price purch f st t).post = summaryOf st.post := by
  cases hf : f t with
  | ok o =>
    simp only [processTicker, hf]
    obtain ⟨hc1, hc2, _⟩ := processChunks_frames t o.chunks
      ({ st with events := st.events ++ [Event.tickerStart t] }, none)
    refine ⟨⟨inlineNorm (streamDecision o (processChunks t o.chunks
        { st with events := st.events ++ [Event.tickerStart t] }).2), engineSig o⟩, ?_, ?_, ?_⟩
    · rw [perOf_updSnapshotRec, perOf_updPerTickerRec]
      rw [show perOf (processChunks t o.chunks
          { st with events := st.events ++ [Event.tickerStart t] }).1.post
        = perOf st.post from hc1]
    · intro _
      exact inlineNorm_valid _
    · rw [summaryOf_updSnapshotRec, summaryOf_updPerTickerRec]
      exact hc2
  | raise pre msg =>
    simp only [processTicker, hf]
    obtain ⟨hc1, hc2, _⟩ := processChunks_frames t pre
      ({ st with events := st.events ++ [Event.tickerStart t] }, none)
    by_cases hb : (pyContains msg "already exists" && pyContains (pyLower msg) "memory") = true
    · rw [if_pos hb]
      set q := logLine (t ++ ": warning Memory collection already exists; reusing existing memory.")
        (processChunks t pre { st with events := st.events ++ [Event.tickerStart t] }).1.post with hq
      have hper : perOf q = perOf st.post := by
        rw [hq]
        exact (perOf_logLine _ _).trans hc1
      refine ⟨⟨((perLookup q t).map TickerRec.suggestion).getD "Hold", Signals.error msg⟩,
        ?_, ?_, ?_⟩
      · rw [perOf_updPerTickerErr t msg q, hper]
      · intro hv
        cases hlk : perLookup q t with
        | none => simp [validSuggestion]
        | some r =>
          have hlk2 : lookupKey (perOf st.post) t = some r := by
            rw [← hper]
            exact hlk
          obtain ⟨kv, hkv_mem, _, hkv_val⟩ := lookupKey_some_mem _ _ _ hlk2
          have hval := hv kv hkv_mem
          rw [hkv_val] at hval
          simp [hlk, hval]
      · rw [summaryOf_updPerTickerErr, hq, summaryOf_logLine]
        exact hc2
    · rw [if_neg hb]
      set q := logLine (t ++ ": error " ++ msg)
        (processChunks t pre { st with events := st.events ++ [Event.tickerStart t] }).1.post with hq
      have hper : perOf q = perOf st.post := by
        rw [hq]
        exact (perOf_logLine _ _).trans hc1
      refine ⟨⟨((perLookup q t).map TickerRec.suggestion).getD "Hold", Signals.error msg⟩,
        ?_, ?_, ?_⟩
      · rw [perOf_updPerTickerErr t msg q, hper]
      · intro hv
        cases hlk : perLookup q t with
        | none => simp [validSuggestion]
        | some r =>
          have hlk2 : lookupKey (perOf st.post) t = some r := by
            rw [← hper]
            exact hlk
          obtain ⟨kv, hkv_mem, _, hkv_val⟩ := lookupKey_some_mem _ _ _ hlk2
          have hval := hv kv hkv_mem
          rw [hkv_val] at hval
          simp [hlk, hval]
      · rw [summaryOf_updPerTickerErr, hq, summaryOf_logLine]
        exact hc2

theorem appendReport_shaped (w : String) (p : Post) (rep : String)
    (per : List (String × TickerRec)) (sum : Option String)
    (h : p.analysis = some (mkAnalysis (some rep) (some per) sum)) :
    appendReport w p
      = withAnalysis p (mkAnalysis
          (some (rep ++ (if rep = "" then "" else "\n") ++ w)) (some per) sum) := by
  have hid := init_analysis_id p rep per sum h
  simp only [appendReport, hid, h, mkAnalysis, withAnalysis, Option.getD_some]

theorem updPerTickerErr_shaped (t msg : String) (p : Post) (rep : String)
    (per : List (String × TickerRec)) (sum : Option String)
    (h : p.analysis = some (mkAnalysis (some rep) (some per) sum)) :
    updPerTickerErr t msg p
      = withAnalysis p (mkAnalysis (some rep)
          (some (setKey per t
            ⟨((lookupKey per t).map TickerRec.suggestion).getD "Hold", Signals.error msg⟩))
          sum) := by
  have hid := init_analysis_id p rep per sum h
  simp only [updPerTickerErr, hid, h, mkAnalysis, withAnalysis, Option.getD_some]

theorem setSummaryStr_shaped (s : String) (p : Post) (rep : String)
    (per : List (String × TickerRec)) (sum : Option String)
    (h : p.analysis = some (mkAnalysis (some rep) (some per) sum)) :
    setSummaryStr s p
      = withAnalysis p (mkAnalysis (some rep) (some per) (some s)) := by
  have hid := init_analysis_id p rep per sum h
  simp only [setSummaryStr, hid, h, mkAnalysis, withAnalysis]

/-- A raising ticker with no prior chunks, benign duplicate-memory message:
the report gains the warning line, the per_ticker entry keeps the previous
suggestion (or Hold) with the error message as signals, and a ticker-error
event is emitted. -/
theorem processTicker_raise_benign (price : String → Option ℚ) (purch : Purchases)
    (f : String → TickerOutcome) (st : RunState) (t msg : String) (rep : String)
    (per : List (String × TickerRec)) (sum : Option String)
    (hf : f t = TickerOutcome.raise [] msg)
    (hb : (pyContains msg "already exists" && pyContains (pyLower msg) "memory") = true)
    (hana : st.post.analysis = some (mkAnalysis (some rep) (some per) sum)) :
    processTicker price purch f st t
      = mkRunState
          (withAnalysis st.post (mkAnalysis
            (some (rep ++ (if rep = "" then "" else "\n")
              ++ wrap_text (t ++ ": warning Memory collection already exists; reusing existing memory.")))
            (some (setKey per t
              ⟨((lookupKey per t).map TickerRec.suggestion).getD "Hold", Signals.error msg⟩))
            sum))
          (st.events ++ [Event.tickerStart t, Event.tickerError t msg])
          (st.txns ++ [Txn.logAppend, Txn.updPerTicker]) := by
  simp only [processTicker, hf]
  rw [if_pos hb]
  show mkRunState
      (updPerTickerErr t msg (logLine
        (t ++ ": warning Memory collection already exists; reusing existing memory.") st.post))
      ((st.events ++ [Event.tickerStart t]) ++ [Event.tickerError t msg])
      ((st.txns ++ [Txn.logAppend]) ++ [Txn.updPerTicker]) = _
  have hlog := appendReport_shaped
    (wrap_text (t ++ ": warning Memory collection already exists; reusing existing memory."))
    st.post rep per sum hana
  rw [show logLine (t ++ ": warning Memory collection already exists; reusing existing memory.") st.post
      = appendReport (wrap_text (t ++ ": warning Memory collection already exists; reusing existing memory.")) st.post
    from rfl, hlog]
  rw [updPerTickerErr_shaped t msg _ _ per sum rfl]
  simp only [mkRunState, withAnalysis]
  refine congrArg₂ (fun e x => RunState.mk _ e x) ?_ ?_ <;> simp [List.append_assoc]

/-- A raising ticker with no prior chunks and a non-benign message: the
report gains an error line instead; the rest is identical. -/
theorem processTicker_raise_errlog (price : String → Option ℚ) (purch : Purchases)
    (f : String → TickerOutcome) (st : RunState) (t msg : String) (rep : String)
    (per : List (String × TickerRec)) (sum : Option String)
    (hf : f t = TickerOutcome.raise [] msg)
    (hb : ¬ (pyContains msg "already exists" && pyContains (pyLower msg) "memory") = true)
    (hana : st.post.analysis = some (mkAnalysis (some rep) (some per) sum)) :
    processTicker price purch f st t
      = mkRunState
          (withAnalysis st.post (mkAnalysis
            (some (rep ++ (if rep = "" then "" else "\n") ++ wrap_text (t ++ ": error " ++ msg)))
            (some (setKey per t
              ⟨((lookupKey per t).map TickerRec.suggestion).getD "Hold", Signals.error msg⟩))
            sum))
          (st.events ++ [Event.tickerStart t, Event.tickerError t msg])
          (st.txns ++ [Txn.logAppend, Txn.updPerTicker]) := by
  simp only [processTicker, hf]
  rw [if_neg hb]
  show mkRunState
      (updPerTickerErr t msg (logLine (t ++ ": error " ++ msg) st.post))
      ((st.events ++ [Event.tickerStart t]) ++ [Event.tickerError t msg])
      ((st.txns ++ [Txn.logAppend]) ++ [Txn.updPerTicker]) = _
  have hlog := appendReport_shaped (wrap_text (t ++ ": error " ++ msg)) st.post rep per sum hana
  rw [show logLine (t ++ ": error " ++ msg) st.post
      = appendReport (wrap_text (t ++ ": error " ++ msg)) st.post from rfl, hlog]
  rw [updPerTickerErr_shaped t msg _ _ per sum rfl]
  simp only [mkRunState, withAnalysis]
  refine congrArg₂ (fun e x => RunState.mk _ e x) ?_ ?_ <;> simp [List.append_assoc]

/-- The ticker loop preserves summary, preserves per_ticker validity, and
covers every processed ticker. -/
theorem foldTickers_main (price : String → Option ℚ) (purch : Purchases)
    (f : String → TickerOutcome) :
    ∀ (ts : List String) (st : RunState),
      summaryOf ((ts.foldl (processTicker price purch f) st).post) = summaryOf st.post
      ∧ ((∀ kv ∈ perOf st.post, validSuggestion kv.2.suggestion = true) →
          ∀ kv ∈ perOf ((ts.foldl (processTicker price purch f) st).post),
            validSuggestion kv.2.suggestion = true)
      ∧ (∀ u, ((perLookup st.post u).isSome = true ∨ u ∈ ts) →
          (perLookup ((ts.foldl (processTicker price purch f) st).post) u).isSome = true) := by
  intro ts
  induction ts with
  | nil =>
    intro st
    refine ⟨rfl, fun hv => hv, ?_⟩
    intro u hu
    rcases hu with h | h
    · exact h
    · simp at h
  | cons t ts ih =>
    intro st
    rw [List.foldl_cons]
    obtain ⟨rec, hper, hvalid, hsum⟩ := processTicker_step price purch f st t
    obtain ⟨ih1, ih2, ih3⟩ := ih (processTicker price purch f st t)
    refine ⟨ih1.trans hsum, ?_, ?_⟩
    · intro hv
      refine ih2 ?_
      intro kv hkv
      rw [hper] at hkv
      rcases mem_setKey _ _ _ _ hkv with h | h
      · exact hv kv h
      · rw [h]
        exact hvalid hv
    · intro u hu
      refine ih3 u ?_
      by_cases hut : u = t
      · left
        subst hut
        show (lookupKey (perOf (processTicker price purch f st u).post) u).isSome = true
        rw [hper, lookupKey_setKey_self]
        rfl
      · rcases hu with h | h
        · left
          show (lookupKey (perOf (processTicker price purch f st t).post) u).isSome = true
          rw [hper, lookupKey_setKey_ne _ _ _ _ hut]
          exact h
        · rcases List.mem_cons.1 h with rfl | h2
          · exact absurd rfl hut
          · right
            exact h2

/-- Unfolding the streaming generator for an available engine. -/
theorem streamRun_available_eq (f : String → TickerOutcome) (price : String → Option ℚ)
    (today : String) (p0 : Post) :
    streamRun (EngineResult.available f) price today p0
      = mkRunState
          (setSummaryStr (String.intercalate "\n" (p0.tickers.map (fun tk =>
              tk ++ ": "
                ++ ((lookupKey (perOf ((p0.tickers.foldl (processTicker price p0.purchases f)
                      (mkRunState (init_analysis p0) [Event.start p0.id p0.tickers]
                        [Txn.initAnalysis])).post)) tk).map TickerRec.suggestion).getD ""
                ++ " (" ++ dateOf p0.optDate today ++ ")")))
            ((p0.tickers.foldl (processTicker price p0.purchases f)
              (mkRunState (init_analysis p0) [Event.start p0.id p0.tickers]
                [Txn.initAnalysis])).post))
          (((p0.tickers.foldl (processTicker price p0.purchases f)
              (mkRunState (init_analysis p0) [Event.start p0.id p0.tickers]
                [Txn.initAnalysis])).events) ++ [Event.done p0.id])
          (((p0.tickers.foldl (processTicker price p0.purchases f)
              (mkRunState (init_analysis p0) [Event.start p0.id p0.tickers]
                [Txn.initAnalysis])).txns) ++ [Txn.setSummary]) := rfl

theorem validPost_spec (p : Post) :
    validPost p = true ↔ ∀ kv ∈ perOf p, validSuggestion kv.2.suggestion = true := by
  simp [validPost, validPerMap, List.all_eq_true]

/-- The per-ticker loop of the non-streaming adapter, in closed form. -/
theorem taLoop_eq (f : String → TickerOutcome) (dateStr : String) :
    ∀ (ts : List String) (per : List (String × TickerRec)) (lines : List String),
      taLoop f dateStr ts (per, lines)
        = (ts.foldl (fun m t => setKey m t (nsRecOf f t)) per,
           lines ++ ts.map (nsLineOf f dateStr)) := by
  intro ts
  induction ts with
  | nil =>
    intro per lines
    simp [taLoop]
  | cons t ts ih =>
    intro per lines
    cases hf : f t with
    | ok o =>
      simp only [taLoop, hf]
      rw [ih]
      rw [List.foldl_cons]
      simp [nsRecOf, nsLineOf, hf, List.append_assoc]
    | raise pre msg =>
      simp only [taLoop, hf]
      rw [ih]
      rw [List.foldl_cons]
      simp [nsRecOf, nsLineOf, hf, List.append_assoc]

theorem foldl_setKey_congr (v1 v2 : String → TickerRec) :
    ∀ (ts : List String) (per : List (String × TickerRec)),
      (∀ t ∈ ts, v1 t = v2 t) →
      ts.foldl (fun m t => setKey m t (v1 t)) per = ts.foldl (fun m t => setKey m t (v2 t)) per := by
  intro ts
  induction ts with
  | nil =>
    intro per _
    rfl
  | cons t ts ih =>
    intro per hall
    rw [List.foldl_cons, List.foldl_cons, hall t (List.mem_cons_self _ _)]
    exact ih _ (fun u hu => hall u (List.mem_cons_of_mem _ hu))

theorem lookupKey_foldl_setKey_isSome (vF : String → TickerRec) :
    ∀ (ts : List String) (per : List (String × TickerRec)) (tk : String),
      (tk ∈ ts ∨ (lookupKey per tk).isSome = true) →
      (lookupKey (ts.foldl (fun m t => setKey m t (vF t)) per) tk).isSome = true := by
  intro ts
  induction ts with
  | nil =>
    intro per tk h
    rcases h with h | h
    · simp at h
    · exact h
  | cons t ts ih =>
    intro per tk h
    rw [List.foldl_cons]
    refine ih _ tk ?_
    by_cases htk : tk = t
    · right
      subst htk
      rw [lookupKey_setKey_self]
      rfl
    · rcases h with h | h
      · rcases List.mem_cons.1 h with rfl | h2
        · exact absurd rfl htk
        · left
          exact h2
      · right
        rw [lookupKey_setKey_ne _ _ _ _ htk]
        exact h

theorem dateOf_some (d today : String) (h : d ≠ "") : dateOf (some d) today = d := by
  simp [dateOf, h]

/-- The streaming ticker loop when every ticker raises immediately: the
per_ticker mapping evolves exactly like the non-streaming one (previous
suggestion or Hold, with the error message), the summary field and the
snapshot are untouched, and every recorded suggestion stays Hold when the
starting mapping was all Hold. -/
theorem stream_raise_fold (price : String → Option ℚ) (purch : Purchases)
    (f : String → TickerOutcome) (msgF : String → String) :
    ∀ (ts : List String) (st : RunState) (rep : String) (per : List (String × TickerRec))
      (sum : Option String),
      (∀ t ∈ ts, f t = TickerOutcome.raise [] (msgF t)) →
      st.post.analysis = some (mkAnalysis (some rep) (some per) sum) →
      (∀ kv ∈ per, kv.2.suggestion = "Hold") →
      ∃ rep2,
        (ts.foldl (processTicker price purch f) st).post
          = withAnalysis st.post (mkAnalysis (some rep2)
              (some (ts.foldl (fun m t => setKey m t ⟨"Hold", Signals.error (msgF t)⟩) per))
              sum)
        ∧ (∀ kv ∈ ts.foldl (fun m t => setKey m t ⟨"Hold", Signals.error (msgF t)⟩) per,
            kv.2.suggestion = "Hold") := by
  intro ts
  induction ts with
  | nil =>
    intro st rep per sum _ hana hhold
    refine ⟨rep, ?_, hhold⟩
    rw [List.foldl_nil, List.foldl_nil]
    show st.post = { st.post with analysis := some (mkAnalysis (some rep) (some per) sum) }
    rw [← hana]
  | cons t ts ih =>
    intro st rep per sum hf hana hhold
    have hft : f t = TickerOutcome.raise [] (msgF t) := hf t (List.mem_cons_self _ _)
    have hprev : ((lookupKey per t).map TickerRec.suggestion).getD "Hold" = "Hold" := by
      cases hlk : lookupKey per t with
      | none => rfl
      | some r =>
        obtain ⟨kv, hmem, _, hval⟩ := lookupKey_some_mem _ _ _ hlk
        have hh := hhold kv hmem
        rw [hval] at hh
        simp [hh]
    have hstep : ∃ w, (processTicker price purch f st t).post
        = withAnalysis st.post (mkAnalysis (some w)
            (some (setKey per t ⟨"Hold", Signals.error (msgF t)⟩)) sum) := by
      by_cases hb : (pyContains (msgF t) "already exists"
          && pyContains (pyLower (msgF t)) "memory") = true
      · have h1 := congrArg RunState.post
          (processTicker_raise_benign price purch f st t (msgF t) rep per sum hft hb hana)
        rw [hprev] at h1
        exact ⟨_, h1⟩
      · have h1 := congrArg RunState.post
          (processTicker_raise_errlog price purch f st t (msgF t) rep per sum hft hb hana)
        rw [hprev] at h1
        exact ⟨_, h1⟩
    obtain ⟨w, hstep⟩ := hstep
    have hhold2 : ∀ kv ∈ setKey per t ⟨"Hold", Signals.error (msgF t)⟩,
        kv.2.suggestion = "Hold" := by
      intro kv hkv
      rcases mem_setKey _ _ _ _ hkv with h | h
      · exact hhold kv h
      · rw [h]
    have hana2 : (processTicker price purch f st t).post.analysis
        = some (mkAnalysis (some w) (some (setKey per t ⟨"Hold", Signals.error (msgF t)⟩)) sum) := by
      rw [hstep]
      rfl
    obtain ⟨rep2, hfold, hhold3⟩ := ih (processTicker price purch f st t) w
      (setKey per t ⟨"Hold", Signals.error (msgF t)⟩) sum
      (fun u hu => hf u (List.mem_cons_of_mem _ hu)) hana2 hhold2
    refine ⟨rep2, ?_, ?_⟩
    · rw [List.foldl_cons, List.foldl_cons, hfold, hstep]
      rfl
    · rw [List.foldl_cons]
      exact hhold3

theorem perLookup_setSummaryStr (s : String) (p : Post) (u : String) :
    perLookup (setSummaryStr s p) u = perLookup p u := by
  show lookupKey (perOf (setSummaryStr s p)) u = lookupKey (perOf p) u
  rw [perOf_setSummaryStr]

-- -------------------
-- Claim C3
-- -------------------

/-- Claim C3 counterexample: when the Analysis Engine session cannot be
constructed (the per-ticker constructor raises), the run emits zero error
events (one ticker-error event instead) and the per_ticker mapping changes,
contradicting the claim for the constructed part of imported/constructed. -/
theorem c3_counterexample :
    ((streamRun cEngBoom cPriceNone "2025-01-01" cPostFresh).events.filter isErrorEv).length = 0
    ∧ ((streamRun cEngBoom cPriceNone "2025-01-01" cPostFresh).events.filter
        isTickerErrorEv).length = 1
    ∧ perLookup (streamRun cEngBoom cPriceNone "2025-01-01" cPostFresh).post "A"
        ≠ perLookup cPostFresh "A" := by
  refine ⟨?_, ?_, ?_⟩ <;> decide

/-- Claim C3 (amended): for every streaming run in which the Analysis
Engine cannot be imported, the run emits exactly one error event, performs
exactly one log-append store transaction, and the per_ticker mapping is
unchanged from its value before the run started.  (A failing per-ticker
session construction instead follows the ticker-error path, per the
counterexample.) -/
theorem c3_import_failure (p0 : Post) (msg : String) (price : String → Option ℚ)
    (today : String) :
    (((streamRun (EngineResult.importError msg) price today p0).events.filter
        isErrorEv).length = 1
      ∧ ((streamRun (EngineResult.importError msg) price today p0).txns.filter
          isLogAppend).length = 1
      ∧ ∀ u, perLookup (streamRun (EngineResult.importError msg) price today p0).post u
          = perLookup p0 u)
    ∧ (((streamRun (EngineResult.notInstalled msg) price today p0).events.filter
        isErrorEv).length = 1
      ∧ ((streamRun (EngineResult.notInstalled msg) price today p0).txns.filter
          isLogAppend).length = 1
      ∧ ∀ u, perLookup (streamRun (EngineResult.notInstalled msg) price today p0).post u
          = perLookup p0 u) := by
  constructor
  · refine ⟨?_, ?_, ?_⟩
    · simp [streamRun, isErrorEv]
    · simp [streamRun, isLogAppend]
    · intro u
      show perLookup (logLine ("ERROR: " ++ msg) (init_analysis p0)) u = perLookup p0 u
      show lookupKey (perOf (logLine ("ERROR: " ++ msg) (init_analysis p0))) u
        = lookupKey (perOf p0) u
      rw [perOf_logLine, perOf_init]
  · refine ⟨?_, ?_, ?_⟩
    · simp [streamRun, isErrorEv]
    · simp [streamRun, isLogAppend]
    · intro u
      show perLookup (logLine ("ERROR: " ++ msg) (init_analysis p0)) u = perLookup p0 u
      show lookupKey (perOf (logLine ("ERROR: " ++ msg) (init_analysis p0))) u
        = lookupKey (perOf p0) u
      rw [perOf_logLine, perOf_init]

-- -------------------
-- Claim C2
-- -------------------

/-- Claim C2 counterexample: on a benign duplicate-memory engine failure
over a post with a prior Buy suggestion, the stored suggestion is indeed
preserved, but a ticker-error event IS emitted, contradicting the claim
that none is emitted for this case. -/
theorem c2_counterexample :
    (streamRun cEngMem cPriceNone "2025-01-01" cPostBuy).events.contains
        (Event.tickerError "A" "Memory collection already exists") = true
    ∧ pyContains "Memory collection already exists" "already exists" = true
    ∧ pyContains (pyLower "Memory collection already exists") "memory" = true
    ∧ ((perLookup cPostBuy "A").map TickerRec.suggestion) = some "Buy"
    ∧ ((perLookup (streamRun cEngMem cPriceNone "2025-01-01" cPostBuy).post "A").map
        TickerRec.suggestion) = some "Buy" := by
  refine ⟨?_, ?_, ?_, ?_, ?_⟩ <;> decide

/-- The per_ticker mapping of a post is all that perLookup reads. -/
theorem perLookup_congr (p q : Post) (u : String) (h : perOf p = perOf q) :
    perLookup p u = perLookup q u := by
  show lookupKey (perOf p) u = lookupKey (perOf q) u
  rw [h]

/-- A raising ticker, with any prior state and any chunks streamed before
the exception: the per_ticker mapping gains the entry keeping the previous
suggestion (Hold when absent) with the error message as signals. -/
theorem processTicker_raise_per (price : String → Option ℚ) (purch : Purchases)
    (f : String → TickerOutcome) (st : RunState) (t : String) (pre : List String) (msg : String)
    (hf : f t = TickerOutcome.raise pre msg) :
    perOf (processTicker price purch f st t).post
      = setKey (perOf st.post) t
          ⟨((perLookup st.post t).map TickerRec.suggestion).getD "Hold", Signals.error msg⟩ := by
  have hA : perOf (processChunks t pre
      { st with events := st.events ++ [Event.tickerStart t] }).1.post = perOf st.post :=
    (processChunks_frames t pre ({ st with events := st.events ++ [Event.tickerStart t] }, none)).1
  simp only [processTicker, hf]
  by_cases hb : (pyContains msg "already exists" && pyContains (pyLower msg) "memory") = true
  · rw [if_pos hb]
    show perOf (updPerTickerErr t msg (logLine
        (t ++ ": warning Memory collection already exists; reusing existing memory.")
        (processChunks t pre { st with events := st.events ++ [Event.tickerStart t] }).1.post)) = _
    rw [perOf_updPerTickerErr]
    have hlog : perOf (logLine
        (t ++ ": warning Memory collection already exists; reusing existing memory.")
        (processChunks t pre { st with events := st.events ++ [Event.tickerStart t] }).1.post)
        = perOf st.post := (perOf_logLine _ _).trans hA
    rw [hlog, perLookup_congr _ _ t hlog]
  · rw [if_neg hb]
    show perOf (updPerTickerErr t msg (logLine (t ++ ": error " ++ msg)
        (processChunks t pre { st with events := st.events ++ [Event.tickerStart t] }).1.post)) = _
    rw [perOf_updPerTickerErr]
    have hlog : perOf (logLine (t ++ ": error " ++ msg)
        (processChunks t pre { st with events := st.events ++ [Event.tickerStart t] }).1.post)
        = perOf st.post := (perOf_logLine _ _).trans hA
    rw [hlog, perLookup_congr _ _ t hlog]

/-- Chunk processing only appends events. -/
theorem chunkStep_events_mem (t : String) (acc : RunState × Option String) (c : String)
    (ev : Event) (h : ev ∈ acc.1.events) : ev ∈ (chunkStep t acc c).1.events := by
  unfold chunkStep
  by_cases hx : pyStrip c = ""
  · simpa [hx] using h
  · cases hd : deriveDecision (pyStrip c) with
    | some d =>
      simp only [hx, if_neg, ite_false, hd]
      exact List.mem_append_left _ h
    | none =>
      simp only [hx, if_neg, ite_false, hd]
      exact List.mem_append_left _ h

/-- The chunk loop only appends events. -/
theorem processChunks_events_mem (t : String) (chunks : List String) :
    ∀ (acc : RunState × Option String) (ev : Event), ev ∈ acc.1.events →
      ev ∈ (chunks.foldl (chunkStep t) acc).1.events := by
  induction chunks with
  | nil =>
    intro acc ev h
    exact h
  | cons c cs ih =>
    intro acc ev h
    rw [List.foldl_cons]
    exact ih _ ev (chunkStep_events_mem t acc c ev h)

/-- One ticker of the streaming loop only appends events. -/
theorem processTicker_events_mem (price : String → Option ℚ) (purch : Purchases)
    (f : String → TickerOutcome) (st : RunState) (u : String) (ev : Event)
    (h : ev ∈ st.events) : ev ∈ (processTicker price purch f st u).events := by
  cases hf : f u with
  | ok o =>
    simp only [processTicker, hf]
    show ev ∈ (processChunks u o.chunks
        { st with events := st.events ++ [Event.tickerStart u] }).1.events
      ++ [Event.tickerDone u
            (inlineNorm (streamDecision o (processChunks u o.chunks
              { st with events := st.events ++ [Event.tickerStart u] }).2))
            (price u)
            (if getBuy purch u = none then none
             else percent_change (getBuy purch u) (price u))]
    exact List.mem_append_left _
      (processChunks_events_mem u o.chunks _ ev (List.mem_append_left _ h))
  | raise pre msg =>
    simp only [processTicker, hf]
    by_cases hb : (pyContains msg "already exists" && pyContains (pyLower msg) "memory") = true
    · rw [if_pos hb]
      show ev ∈ (processChunks u pre
          { st with events := st.events ++ [Event.tickerStart u] }).1.events
        ++ [Event.tickerError u msg]
      exact List.mem_append_left _
        (processChunks_events_mem u pre _ ev (List.mem_append_left _ h))
    · rw [if_neg hb]
      show ev ∈ (processChunks u pre
          { st with events := st.events ++ [Event.tickerStart u] }).1.events
        ++ [Event.tickerError u msg]
      exact List.mem_append_left _
        (processChunks_events_mem u pre _ ev (List.mem_append_left _ h))

/-- The ticker loop only appends events. -/
theorem foldTickers_events_mem (price : String → Option ℚ) (purch : Purchases)
    (f : String → TickerOutcome) :
    ∀ (ts : List String) (st : RunState) (ev : Event), ev ∈ st.events →
      ev ∈ (ts.foldl (processTicker price purch f) st).events := by
  intro ts
  induction ts with
  | nil =>
    intro st ev h
    exact h
  | cons u rest ih =>
    intro st ev h
    rw [List.foldl_cons]
    exact ih _ ev (processTicker_events_mem price purch f st u ev h)

/-- Through the whole ticker loop, a ticker whose engine call raises keeps
its previously stored suggestion: its own steps rewrite the entry with the
previous suggestion, and every other step touches only its own key. -/
theorem foldTickers_preserve_sugg (price : String → Option ℚ) (purch : Purchases)
    (f : String → TickerOutcome) (t : String) (pre : List String) (msg : String)
    (hf : f t = TickerOutcome.raise pre msg) :
    ∀ (ts : List String) (st : RunState) (s : String),
      (perLookup st.post t).map TickerRec.suggestion = some s →
      (perLookup ((ts.foldl (processTicker price purch f) st)).post t).map TickerRec.suggestion
        = some s := by
  intro ts
  induction ts with
  | nil =>
    intro st s h
    exact h
  | cons u rest ih =>
    intro st s h
    rw [List.foldl_cons]
    refine ih _ s ?_
    by_cases hut : u = t
    · subst hut
      have hper := processTicker_raise_per price purch f st u pre msg hf
      show (lookupKey (perOf (processTicker price purch f st u).post) u).map
        TickerRec.suggestion = some s
      rw [hper, lookupKey_setKey_self]
      show some (((perLookup st.post u).map TickerRec.suggestion).getD "Hold") = some s
      rw [h]
      rfl
    · obtain ⟨rec, hper, _, _⟩ := processTicker_step price purch f st u
      show (lookupKey (perOf (processTicker price purch f st u).post) t).map
        TickerRec.suggestion = some s
      rw [hper, lookupKey_setKey_ne _ _ _ _ (fun hh => hut hh.symm)]
      exact h

/-- A raising ticker of the run always yields its ticker-error event, which
the remaining steps keep. -/
theorem foldTickers_raise_event (price : String → Option ℚ) (purch : Purchases)
    (f : String → TickerOutcome) (t : String) (pre : List String) (msg : String)
    (hf : f t = TickerOutcome.raise pre msg) :
    ∀ (ts : List String) (st : RunState), t ∈ ts →
      Event.tickerError t msg ∈ (ts.foldl (processTicker price purch f) st).events := by
  intro ts
  induction ts with
  | nil =>
    intro st h
    exact absurd h (List.not_mem_nil t)
  | cons u rest ih =>
    intro st h
    rw [List.foldl_cons]
    rcases List.mem_cons.1 h with rfl | h2
    · have hm : Event.tickerError t msg ∈ (processTicker price purch f st t).events := by
        simp only [processTicker, hf]
        by_cases hb : (pyContains msg "already exists"
            && pyContains (pyLower msg) "memory") = true
        · rw [if_pos hb]
          show Event.tickerError t msg ∈ (processChunks t pre
              { st with events := st.events ++ [Event.tickerStart t] }).1.events
            ++ [Event.tickerError t msg]
          exact List.mem_append_right _ (List.mem_singleton_self _)
        · rw [if_neg hb]
          show Event.tickerError t msg ∈ (processChunks t pre
              { st with events := st.events ++ [Event.tickerStart t] }).1.events
            ++ [Event.tickerError t msg]
          exact List.mem_append_right _ (List.mem_singleton_self _)
      exact foldTickers_events_mem price purch f rest _ _ hm
    · exact ih _ h2

/-- Claim C2 (amended): for every streaming run in which the engine raises,
for any ticker of the post (possibly mid-stream, after any number of
streamed chunks), an exception whose message contains "already exists" and
(case-insensitively) "memory", when the post has a previously recorded
suggestion for that ticker: the stored suggestion for that ticker is still
the previous one after the run; however - contrary to the original claim -
a ticker-error event IS emitted for that ticker, because the error event is
yielded unconditionally, the benign check only selecting a warning log line
over an error log line. -/
theorem c2_benign_memory_error (p0 : Post) (t : String) (pre : List String) (msg : String)
    (f : String → TickerOutcome) (price : String → Option ℚ) (today : String) (s : String)
    (ht : t ∈ p0.tickers)
    (hf : f t = TickerOutcome.raise pre msg)
    (hb1 : pyContains msg "already exists" = true)
    (hb2 : pyContains (pyLower msg) "memory" = true)
    (hprev : (perLookup p0 t).map TickerRec.suggestion = some s) :
    (perLookup (streamRun (EngineResult.available f) price today p0).post t).map
        TickerRec.suggestion = some s
    ∧ Event.tickerError t msg ∈ (streamRun (EngineResult.available f) price today p0).events := by
  have hrun := streamRun_available_eq f price today p0
  have hprev0 : (perLookup (mkRunState (init_analysis p0) [Event.start p0.id p0.tickers]
      [Txn.initAnalysis]).post t).map TickerRec.suggestion = some s := by
    show (lookupKey (perOf (init_analysis p0)) t).map TickerRec.suggestion = some s
    rw [perOf_init]
    exact hprev
  constructor
  · have h1 := foldTickers_preserve_sugg price p0.purchases f t pre msg hf p0.tickers
      (mkRunState (init_analysis p0) [Event.start p0.id p0.tickers] [Txn.initAnalysis]) s hprev0
    conv_lhs => rw [hrun]
    show (perLookup (setSummaryStr _ _) t).map TickerRec.suggestion = some s
    rw [perLookup_setSummaryStr]
    exact h1
  · have h2 := foldTickers_raise_event price p0.purchases f t pre msg hf p0.tickers
      (mkRunState (init_analysis p0) [Event.start p0.id p0.tickers] [Txn.initAnalysis]) ht
    rw [hrun]
    exact List.mem_append_left _ h2

/-- Witness for the amended C2 at concrete inputs. -/
theorem c2_benign_memory_error_witness :
    (perLookup (streamRun (EngineResult.available cFMem) cPriceNone "2025-01-01" cPostBuy).post
        "A").map TickerRec.suggestion = some "Buy"
    ∧ Event.tickerError "A" "Memory collection already exists"
        ∈ (streamRun (EngineResult.available cFMem) cPriceNone "2025-01-01" cPostBuy).events :=
  c2_benign_memory_error cPostBuy "A" [] "Memory collection already exists" cFMem
    cPriceNone "2025-01-01" "Buy" (by decide) (by decide) (by decide) (by decide) (by decide)

-- -------------------
-- Claim C4
-- -------------------

/-- Claim C4 counterexample: a completed non-streaming run over a
one-ticker post whose engine call raises persists the summary line
A: Hold (error), which does not match the mandated format
ticker: suggestion (date) for any Buy/Sell/Hold suggestion with the run
as-of date 2025-01-01. -/
theorem c4_counterexample :
    summaryOf (analyze_post cEngBoom cPriceNone "2025-01-01" cPostFresh) = some "A: Hold (error)"
    ∧ cPostFresh.tickers = ["A"]
    ∧ dateOf cPostFresh.optDate "2025-01-01" = "2025-01-01"
    ∧ "A: Hold (error)" ≠ "A: Buy (2025-01-01)"
    ∧ "A: Hold (error)" ≠ "A: Sell (2025-01-01)"
    ∧ "A: Hold (error)" ≠ "A: Hold (2025-01-01)" := by
  refine ⟨?_, ?_, ?_, ?_, ?_, ?_⟩ <;> decide

/-- Claim C4 (amended): after a completed streaming run the persisted
summary has one line per ticker, in ticker order, of the form
ticker: suggestion (date) with every suggestion Buy/Sell/Hold (for a post
whose prior per_ticker entries are valid); the non-streaming variant also
builds one line per ticker in order, but a ticker whose engine call raises
yields the line ticker: Hold (error) instead of the dated form. -/
theorem c4_summary_shape (p0 : Post) (price : String → Option ℚ) (today : String)
    (f : String → TickerOutcome) (hvalid : validPost p0 = true) :
    (summaryOf (streamRun (EngineResult.available f) price today p0).post
      = some (String.intercalate "\n" (p0.tickers.map (fun tk =>
          tk ++ ": "
            ++ ((perLookup (streamRun (EngineResult.available f) price today p0).post tk).map
                  TickerRec.suggestion).getD ""
            ++ " (" ++ dateOf p0.optDate today ++ ")"))))
    ∧ (∀ tk ∈ p0.tickers, ∃ rec,
        perLookup (streamRun (EngineResult.available f) price today p0).post tk = some rec
          ∧ validSuggestion rec.suggestion = true)
    ∧ (run_tradingagents_analysis (EngineResult.available f) p0.tickers
          (dateOf p0.optDate today)).summary
        = String.intercalate "\n" (p0.tickers.map (nsLineOf f (dateOf p0.optDate today)))
    ∧ (∀ t o, f t = TickerOutcome.ok o →
        nsLineOf f (dateOf p0.optDate today) t
          = t ++ ": " ++ pyNorm (some o.propagate_decision) ++ " ("
            ++ dateOf p0.optDate today ++ ")")
    ∧ (∀ t pre m, f t = TickerOutcome.raise pre m →
        nsLineOf f (dateOf p0.optDate today) t = t ++ ": Hold (error)") := by
  obtain ⟨hsum, hval, hcov⟩ := foldTickers_main price p0.purchases f p0.tickers
    (mkRunState (init_analysis p0) [Event.start p0.id p0.tickers] [Txn.initAnalysis])
  have hrun := streamRun_available_eq f price today p0
  have hvalid0 : ∀ kv ∈ perOf (mkRunState (init_analysis p0) [Event.start p0.id p0.tickers]
      [Txn.initAnalysis]).post, validSuggestion kv.2.suggestion = true := by
    show ∀ kv ∈ perOf (init_analysis p0), validSuggestion kv.2.suggestion = true
    rw [perOf_init]
    exact (validPost_spec p0).1 hvalid
  have hperfix : ∀ tk, perLookup (streamRun (EngineResult.available f) price today p0).post tk
      = lookupKey (perOf ((p0.tickers.foldl (processTicker price p0.purchases f)
          (mkRunState (init_analysis p0) [Event.start p0.id p0.tickers]
            [Txn.initAnalysis])).post)) tk := by
    intro tk
    rw [hrun]
    show perLookup (setSummaryStr _ _) tk = _
    rw [perLookup_setSummaryStr]
    rfl
  refine ⟨?_, ?_, ?_, ?_, ?_⟩
  · have h1 : summaryOf (streamRun (EngineResult.available f) price today p0).post
        = some (String.intercalate "\n" (p0.tickers.map (fun tk =>
            tk ++ ": "
              ++ ((lookupKey (perOf ((p0.tickers.foldl (processTicker price p0.purchases f)
                    (mkRunState (init_analysis p0) [Event.start p0.id p0.tickers]
                      [Txn.initAnalysis])).post)) tk).map TickerRec.suggestion).getD ""
              ++ " (" ++ dateOf p0.optDate today ++ ")"))) := by
      conv_lhs => rw [hrun]
      exact summaryOf_setSummaryStr _ _
    rw [h1]
    have hfuneq : (fun tk =>
        tk ++ ": "
          ++ ((lookupKey (perOf ((p0.tickers.foldl (processTicker price p0.purchases f)
                (mkRunState (init_analysis p0) [Event.start p0.id p0.tickers]
                  [Txn.initAnalysis])).post)) tk).map TickerRec.suggestion).getD ""
          ++ " (" ++ dateOf p0.optDate today ++ ")")
        = (fun tk =>
        tk ++ ": "
          ++ ((perLookup (streamRun (EngineResult.available f) price today p0).post tk).map
                TickerRec.suggestion).getD ""
          ++ " (" ++ dateOf p0.optDate today ++ ")") := by
      funext tk
      rw [hperfix tk]
    rw [hfuneq]
  · intro tk htk
    have hs := hcov tk (Or.inr htk)
    have hs2 : (perLookup (streamRun (EngineResult.available f) price today p0).post tk).isSome
        = true := by
      rw [hperfix tk]
      exact hs
    obtain ⟨rec, hrec⟩ := Option.isSome_iff_exists.1 hs2
    refine ⟨rec, hrec, ?_⟩
    have hlk2 : lookupKey (perOf ((p0.tickers.foldl (processTicker price p0.purchases f)
        (mkRunState (init_analysis p0) [Event.start p0.id p0.tickers]
          [Txn.initAnalysis])).post)) tk = some rec := by
      rw [← hperfix tk]
      exact hrec
    obtain ⟨kv, hkv_mem, _, hkv_val⟩ := lookupKey_some_mem _ _ _ hlk2
    have hvv := hval hvalid0 kv hkv_mem
    rw [hkv_val] at hvv
    exact hvv
  · show (String.intercalate "\n" (taLoop f (dateOf p0.optDate today) p0.tickers ([], [])).2) = _
    rw [taLoop_eq]
    simp
  · intro t o hfo
    simp [nsLineOf, hfo]
  · intro t pre m hfm
    simp [nsLineOf, hfm]

/-- Witness for the amended C4 at concrete inputs. -/
theorem c4_summary_shape_witness :
    summaryOf (streamRun (EngineResult.available cFOk) cPriceNone "2025-01-01" cPostFresh).post
      = some (String.intercalate "\n" (cPostFresh.tickers.map (fun tk =>
          tk ++ ": "
            ++ ((perLookup (streamRun (EngineResult.available cFOk) cPriceNone "2025-01-01"
                  cPostFresh).post tk).map TickerRec.suggestion).getD ""
            ++ " (" ++ dateOf cPostFresh.optDate "2025-01-01" ++ ")"))) :=
  (c4_summary_shape cPostFresh cPriceNone "2025-01-01" cFOk (by decide)).1

-- -------------------
-- Claim C1
-- -------------------

/-- Claim C1 counterexample: on the same inputs (an all-raising engine, a
fresh one-ticker post) the non-streaming and streaming pipelines persist
different summaries, different snapshots, and different report keys, so
their persisted end states are not byte-for-byte identical. -/
theorem c1_counterexample :
    summaryOf (analyze_post cEngBoom cPriceNone "2025-01-01" cPostFresh)
        ≠ summaryOf (streamRun cEngBoom cPriceNone "2025-01-01" cPostFresh).post
    ∧ (analyze_post cEngBoom cPriceNone "2025-01-01" cPostFresh).snapshot
        ≠ (streamRun cEngBoom cPriceNone "2025-01-01" cPostFresh).post.snapshot
    ∧ reportOf (analyze_post cEngBoom cPriceNone "2025-01-01" cPostFresh)
        ≠ reportOf (streamRun cEngBoom cPriceNone "2025-01-01" cPostFresh).post
    ∧ summaryOf (analyze_post cEngBoom cPriceNone "2025-01-01" cPostFresh)
        = some "A: Hold (error)"
    ∧ summaryOf (streamRun cEngBoom cPriceNone "2025-01-01" cPostFresh).post
        = some "A: Hold (2025-01-01)"
    ∧ (analyze_post cEngBoom cPriceNone "2025-01-01" cPostFresh).snapshot
        = [("A", ⟨none, none⟩)]
    ∧ (streamRun cEngBoom cPriceNone "2025-01-01" cPostFresh).post.snapshot = [] := by
  refine ⟨?_, ?_, ?_, ?_, ?_, ?_, ?_⟩ <;> decide

/-- Claim C1 (amended): the two pipelines agree on the persisted per_ticker
mapping but not on the rest of the persisted state.  For a fresh post (no
analysis yet, a fixed as-of date) whose every engine call raises: both
pipelines store the same per_ticker mapping (Hold with the error message per
ticker); the non-streaming summary lines read ticker: Hold (error) while the
streaming ones read ticker: Hold (date); the streaming run leaves the
snapshot untouched while the non-streaming run rebuilds it from the price
feed. -/
theorem c1_pipelines_diverge (ts : List String) (msgF : String → String)
    (f : String → TickerOutcome) (price : String → Option ℚ) (today d : String) (p0 : Post)
    (hf : ∀ t ∈ ts, f t = TickerOutcome.raise [] (msgF t))
    (hana : p0.analysis = none)
    (hts : p0.tickers = ts)
    (hdate : p0.optDate = some d)
    (hd : d ≠ "") :
    perOf (analyze_post (EngineResult.available f) price today p0)
        = perOf (streamRun (EngineResult.available f) price today p0).post
    ∧ summaryOf (analyze_post (EngineResult.available f) price today p0)
        = some (String.intercalate "\n" (ts.map (fun t => t ++ ": Hold (error)")))
    ∧ summaryOf (streamRun (EngineResult.available f) price today p0).post
        = some (String.intercalate "\n" (ts.map (fun t =>
            t ++ ": " ++ "Hold" ++ " (" ++ d ++ ")")))
    ∧ (streamRun (EngineResult.available f) price today p0).post.snapshot = p0.snapshot
    ∧ (analyze_post (EngineResult.available f) price today p0).snapshot
        = ts.foldl (fun m t =>
            setKey m t ⟨price t, if getBuy p0.purchases t = none then none
              else percent_change (getBuy p0.purchases t) (price t)⟩) [] := by
  subst hts
  have hdateOf : dateOf p0.optDate today = d := by
    rw [hdate]
    exact dateOf_some d today hd
  have hana0 : (mkRunState (init_analysis p0) [Event.start p0.id p0.tickers]
      [Txn.initAnalysis]).post.analysis = some (mkAnalysis (some "") (some []) none) := by
    show (init_analysis p0).analysis = some (mkAnalysis (some "") (some []) none)
    simp [init_analysis, hana, mkAnalysis]
  obtain ⟨rep2, hfold, hhold⟩ := stream_raise_fold price p0.purchases f msgF p0.tickers
    (mkRunState (init_analysis p0) [Event.start p0.id p0.tickers] [Txn.initAnalysis])
    "" [] none hf hana0 (fun kv hkv => absurd hkv (List.not_mem_nil kv))
  have hperF : perOf ((p0.tickers.foldl (processTicker price p0.purchases f)
      (mkRunState (init_analysis p0) [Event.start p0.id p0.tickers] [Txn.initAnalysis])).post)
      = p0.tickers.foldl (fun m t => setKey m t ⟨"Hold", Signals.error (msgF t)⟩) [] := by
    rw [hfold]
    rfl
  have hHold : ∀ tk ∈ p0.tickers,
      ((lookupKey (p0.tickers.foldl (fun m t => setKey m t ⟨"Hold", Signals.error (msgF t)⟩) [])
        tk).map TickerRec.suggestion).getD "" = "Hold" := by
    intro tk htk
    have hsome := lookupKey_foldl_setKey_isSome (fun t => ⟨"Hold", Signals.error (msgF t)⟩)
      p0.tickers [] tk (Or.inl htk)
    obtain ⟨rec, hrec⟩ := Option.isSome_iff_exists.1 hsome
    obtain ⟨kv, hmem, _, hval⟩ := lookupKey_some_mem _ _ _ hrec
    have hh := hhold kv hmem
    rw [hval] at hh
    rw [hrec]
    simp [hh]
  have hrun := streamRun_available_eq f price today p0
  have hper_ns : perOf (analyze_post (EngineResult.available f) price today p0)
      = p0.tickers.foldl (fun m t => setKey m t ⟨"Hold", Signals.error (msgF t)⟩) [] := by
    show (taLoop f (dateOf p0.optDate today) p0.tickers ([], [])).1
      = p0.tickers.foldl (fun m t => setKey m t ⟨"Hold", Signals.error (msgF t)⟩) []
    rw [taLoop_eq]
    exact foldl_setKey_congr (fun t => nsRecOf f t)
      (fun t => ⟨"Hold", Signals.error (msgF t)⟩) p0.tickers []
      (fun t ht => by simp [nsRecOf, hf t ht])
  have hper_st : perOf (streamRun (EngineResult.available f) price today p0).post
      = p0.tickers.foldl (fun m t => setKey m t ⟨"Hold", Signals.error (msgF t)⟩) [] := by
    conv_lhs => rw [hrun]
    show perOf (setSummaryStr _ _) = _
    rw [perOf_setSummaryStr]
    exact hperF
  refine ⟨?_, ?_, ?_, ?_, ?_⟩
  · rw [hper_ns, hper_st]
  · have hline : (taLoop f (dateOf p0.optDate today) p0.tickers ([], [])).2
        = p0.tickers.map (fun t => t ++ ": Hold (error)") := by
      rw [taLoop_eq]
      simp only [List.nil_append]
      exact List.map_congr_left (fun t ht => by simp [nsLineOf, hf t ht])
    show some (String.intercalate "\n" (taLoop f (dateOf p0.optDate today) p0.tickers ([], [])).2)
      = some (String.intercalate "\n" (p0.tickers.map (fun t => t ++ ": Hold (error)")))
    rw [hline]
  · have hmap2 : p0.tickers.map (fun tk =>
        tk ++ ": "
          ++ ((lookupKey (perOf ((p0.tickers.foldl (processTicker price p0.purchases f)
                (mkRunState (init_analysis p0) [Event.start p0.id p0.tickers]
                  [Txn.initAnalysis])).post)) tk).map TickerRec.suggestion).getD ""
          ++ " (" ++ dateOf p0.optDate today ++ ")")
        = p0.tickers.map (fun t => t ++ ": " ++ "Hold" ++ " (" ++ d ++ ")") := by
      refine List.map_congr_left ?_
      intro tk htk
      show tk ++ ": "
          ++ ((lookupKey (perOf ((p0.tickers.foldl (processTicker price p0.purchases f)
                (mkRunState (init_analysis p0) [Event.start p0.id p0.tickers]
                  [Txn.initAnalysis])).post)) tk).map TickerRec.suggestion).getD ""
          ++ " (" ++ dateOf p0.optDate today ++ ")"
        = tk ++ ": " ++ "Hold" ++ " (" ++ d ++ ")"
      rw [hperF, hHold tk htk, hdateOf]
    conv_lhs => rw [hrun]
    show summaryOf (setSummaryStr _ _) = _
    rw [summaryOf_setSummaryStr, hmap2]
  · conv_lhs => rw [hrun]
    show (setSummaryStr _ _).snapshot = p0.snapshot
    rw [snapshot_setSummaryStr, hfold]
    rfl
  · rfl

/-- Witness for the amended C1 at concrete inputs. -/
theorem c1_pipelines_diverge_witness :
    summaryOf (analyze_post (EngineResult.available cFBoom) cPriceNone "2025-01-01" cPostFresh)
        = some (String.intercalate "\n" (["A"].map (fun t => t ++ ": Hold (error)")))
    ∧ summaryOf (streamRun (EngineResult.available cFBoom) cPriceNone "2025-01-01"
          cPostFresh).post
        = some (String.intercalate "\n" (["A"].map (fun t =>
            t ++ ": " ++ "Hold" ++ " (" ++ "2025-01-01" ++ ")")))
    ∧ (streamRun (EngineResult.available cFBoom) cPriceNone "2025-01-01"
          cPostFresh).post.snapshot = cPostFresh.snapshot := by
  have h := c1_pipelines_diverge ["A"] (fun _ => "boom") cFBoom cPriceNone "2025-01-01"
    "2025-01-01" cPostFresh (fun t _ => rfl) (by decide) (by decide) (by decide) (by decide)
  exact ⟨h.2.1, h.2.2.1, h.2.2.2.1⟩
